import Mathlib

/-!
Shallow embedding of the expression kernel of the repository
(files src/expression.py, src/data_type_encoding.py, src/encoding.py)
together with proofs settling the claims of its specification.

Conventions of the embedding:
* Byte strings are List Nat (one entry per byte).
* Python str values are represented by their UTF-8 byte sequences
  (List Nat); str.encode("utf-8") / bytes.decode("utf-8") then become
  identities.
* Errors become the Except PyErr monad.  Several exception classes of the
  source (EncodingError, DecodingError, NoNumberEncoding,
  NonDifferentiableExpressionError) call super.__init__(msg) instead of
  super().__init__(msg) inside their own __init__, so constructing such an
  exception object itself raises TypeError; every raise of one of these
  classes is therefore modelled as PyErr.typeError.
* Machine integers are Nat/Int with explicit wrapping (int32 values are
  wrapped modulo 2^32 where numpy casts).
* IEEE-754 doubles are carried as their 64-bit patterns (Nat).  The only
  float operations the development relies on are bit-level ones
  (serialisation, negation/abs sign-bit flips, and equality
  classification).  Floating-point arithmetic (numpy constant folds, true
  division) is outside the embedding: branches of the source that would
  produce freshly computed float values are mapped to the marker error
  PyErr.floatOpUnmodelled, and no theorem below depends on such a branch.
-/

namespace Erroneous

/-- Python exceptions that can reach the caller in the modelled code. -/
inductive PyErr
  | typeError
  | overflowError
  | notImplementedError
  | keyError
  | indexError
  | valueError
  | zeroDivisionError
  | evaluationError
  | substitutionError
  | matchError
  | floatOpUnmodelled
  | arrayConstUnmodelled
  deriving DecidableEq

deriving instance DecidableEq for Except

/-- Python n.to_bytes(k, "big"), defined for all n; callers model the
OverflowError of to_bytes explicitly before using it. -/
def toBytesBE : Nat → Nat → List Nat
  | 0, _ => []
  | k + 1, n => toBytesBE k (n / 256) ++ [n % 256]

/-- Python int.from_bytes(bs, "big"). -/
def fromBytesBE (bs : List Nat) : Nat :=
  bs.foldl (fun a b => 256 * a + b) 0

/-- One little-endian machine scalar of width k, as written by numpy
tobytes on the (little-endian) reference platform. -/
def toBytesLE : Nat → Nat → List Nat
  | 0, _ => []
  | k + 1, n => n % 256 :: toBytesLE k (n / 256)

/-- Little-endian bytes back to a Nat, as read by numpy frombuffer. -/
def fromBytesLE : List Nat → Nat
  | [] => 0
  | b :: bs => b + 256 * fromBytesLE bs


/-! ## Numeric codec (data_type_encoding.py)

Values encodable by encode_numeric.  A Python int or float is encoded via
a 0-dimensional numpy array and decoded back to a plain scalar, so the
scalar constructors also stand for 0-d arrays; the array constructors
represent arrays of dimension at least one.  Int arrays carry their
(platform int64) element values; float arrays carry 64-bit patterns. -/

inductive NumValue
  | int (z : Int)
  | float (bits : Nat)
  | intArr (shape : List Nat) (data : List Int)
  | floatArr (shape : List Nat) (data : List Nat)
  deriving DecidableEq

/-- Bytes of one int32 element as written by numpy tobytes: the value is
cast (wrapped) to int32 and laid out little-endian two's complement. -/
def int32Bytes (z : Int) : List Nat := toBytesLE 4 (z % 2 ^ 32).toNat

/-- The signed reading of a 32-bit pattern, as numpy frombuffer + int(). -/
def toSigned32 (u : Nat) : Int := if u < 2 ^ 31 then (u : Int) else (u : Int) - 2 ^ 32

/-- Shape dimensions, each x.to_bytes(4, "big", signed=False); a dimension
of 2^32 or more makes to_bytes raise OverflowError. -/
def encodeShape : List Nat → Except PyErr (List Nat)
  | [] => .ok []
  | d :: ds =>
    if 2 ^ 32 ≤ d then .error .overflowError
    else match encodeShape ds with
      | .ok rest => .ok (toBytesBE 4 d ++ rest)
      | .error e => .error e

/-- Body of _encode_numpy_array after the dtype dispatch: the length check
(raise EncodingError, whose broken __init__ raises TypeError), the type
byte (2 * shape_length + int_float_flag), the shape, then the payload. -/
def encodeArray (flag : Nat) (shape : List Nat) (elemBytes : List Nat) :
    Except PyErr (List Nat) :=
  if 127 < shape.length then .error .typeError
  else match encodeShape shape with
    | .ok sb => .ok ((2 * shape.length + flag) :: (sb ++ elemBytes))
    | .error e => .error e

/-- encode_numeric: ints and floats go through np.array(x, dtype) (a 0-d
array); np.array of an out-of-range Python int raises OverflowError.
Arrays are first cast with astype, which silently wraps int values. -/
def encode_numeric : NumValue → Except PyErr (List Nat)
  | .int z =>
    if z < -(2 ^ 31) ∨ 2 ^ 31 ≤ z then .error .overflowError
    else encodeArray 0 [] (int32Bytes z)
  | .float bits => encodeArray 1 [] (toBytesLE 8 bits)
  | .intArr shape data => encodeArray 0 shape ((data.map int32Bytes).flatten)
  | .floatArr shape data => encodeArray 1 shape ((data.map (toBytesLE 8)).flatten)

/-- decode_numeric_with_size.  data[0] on an empty input raises IndexError;
slices clip like Python slices; np.frombuffer raises ValueError when the
buffer length is not a multiple of the element size; int()/float() of an
array whose size is not 1 raises TypeError; reshape raises ValueError on a
count mismatch. -/
def decode_numeric_with_size (data : List Nat) : Except PyErr (NumValue × Nat) :=
  match data with
  | [] => .error .indexError
  | b0 :: _ =>
    let flag := b0 % 2
    let dsize := if flag = 0 then 4 else 8
    let shapeLen := b0 / 2
    let shape := (List.range shapeLen).map fun i => fromBytesBE ((data.drop (4 * i + 1)).take 4)
    let n := shape.prod
    let dataStart := 1 + 4 * shapeLen
    let dataEnd := dataStart + dsize * n
    let dbytes := (data.drop dataStart).take (dsize * n)
    if dbytes.length % dsize ≠ 0 then .error .valueError
    else
      let cnt := dbytes.length / dsize
      let elems := (List.range cnt).map fun i => fromBytesLE ((dbytes.drop (dsize * i)).take dsize)
      if shapeLen = 0 then
        if cnt ≠ 1 then .error .typeError
        else if flag = 0 then .ok (.int (toSigned32 (elems.headD 0)), dataEnd)
        else .ok (.float (elems.headD 0), dataEnd)
      else
        if cnt ≠ n then .error .valueError
        else if flag = 0 then .ok (.intArr shape (elems.map toSigned32), dataEnd)
        else .ok (.floatArr shape elems, dataEnd)

/-! ## Bytestring codec (data_type_encoding.py) -/

/-- encode_bytestring.  The guard compares against
bytestring_length_max = 256 ** 4 = 2^32 (not 2^32 - 1); when it fires, the
raise of EncodingError itself raises TypeError (broken __init__); a length
of exactly 2^32 passes the guard and then n.to_bytes(4, "big") raises
OverflowError. -/
def encode_bytestring (data : List Nat) : Except PyErr (List Nat) :=
  if 2 ^ 32 < data.length then .error .typeError
  else if 2 ^ 32 ≤ data.length then .error .overflowError
  else .ok (toBytesBE 4 data.length ++ data)

/-- decode_bytestring_with_size.  Only the presence of the 4-byte prefix is
checked (raise DecodingError, whose broken __init__ raises TypeError); the
payload slice data[4 : 4 + n] clips silently when the input is shorter
than the declared length. -/
def decode_bytestring_with_size (data : List Nat) : Except PyErr (List Nat × Nat) :=
  if data.length < 4 then .error .typeError
  else
    let n := fromBytesBE (data.take 4)
    .ok ((data.drop 4).take n, n + 4)

/-! ## Codec round-trip machinery -/

/-- Values on which the numeric codec round-trips: scalars in range
(np.array rejects out-of-range ints; float patterns fit 64 bits) and
arrays of dimension 1..127 whose dims fit the u32 shape field, whose
buffer matches the shape, and whose int elements survive the silent
astype(int32) cast. -/
def NumGood : NumValue → Prop
  | .int z => -(2 ^ 31) ≤ z ∧ z < 2 ^ 31
  | .float bits => bits < 2 ^ 64
  | .intArr shape data =>
      1 ≤ shape.length ∧ shape.length ≤ 127 ∧ (∀ d ∈ shape, d < 2 ^ 32) ∧
        data.length = shape.prod ∧ ∀ z ∈ data, -(2 ^ 31) ≤ z ∧ z < 2 ^ 31
  | .floatArr shape data =>
      1 ≤ shape.length ∧ shape.length ≤ 127 ∧ (∀ d ∈ shape, d < 2 ^ 32) ∧
        data.length = shape.prod ∧ ∀ b ∈ data, b < 2 ^ 64

/-! ## Expression AST (expression.py)

Constant.value is dynamically typed in Python.  The claims below only
involve scalar constants, so the embedded value type carries Python ints,
Python floats (as IEEE-754 bit patterns) and the function objects that
Cos.expr_apply / Sin.expr_apply return (a fresh lambda, instead of an
expression as the sibling classes do). -/

/-- Tag of the lambda returned by Cos.expr_apply or Sin.expr_apply. -/
inductive LamTag
  | cosFn
  | sinFn
  deriving DecidableEq

/-- A value held by a Constant (or produced by _reduce_constants). -/
inductive PyVal
  | int (z : Int)
  | float (bits : Nat)
  | lam (t : LamTag)
  deriving DecidableEq

def floatExpField (b : Nat) : Nat := b / 2 ^ 52 % 2 ^ 11

def floatMantissa (b : Nat) : Nat := b % 2 ^ 52

def floatSignBit (b : Nat) : Bool := b / 2 ^ 63 % 2 == 1

def floatIsNaN (b : Nat) : Bool := floatExpField b == 2047 && floatMantissa b != 0

def floatIsInf (b : Nat) : Bool := floatExpField b == 2047 && floatMantissa b == 0

/-- The exact rational value of a finite double given by its bit
pattern. -/
def floatToRat (b : Nat) : Rat :=
  let m := floatMantissa b
  let e := floatExpField b
  let mag : Rat :=
    if e = 0 then (m : Rat) * (2 : Rat) ^ (-1074 : Int)
    else ((2 ^ 52 + m : Nat) : Rat) * (2 : Rat) ^ ((e : Int) - 1075)
  if floatSignBit b then -mag else mag

/-- IEEE == on two doubles: NaN equals nothing, infinities compare by
sign, finite values by exact magnitude (so -0.0 == 0.0). -/
def pyFloatEqFloat (a b : Nat) : Bool :=
  if floatIsNaN a || floatIsNaN b then false
  else if floatIsInf a || floatIsInf b then
    floatIsInf a && floatIsInf b && (floatSignBit a == floatSignBit b)
  else floatToRat a == floatToRat b

/-- Python == between a double and an int. -/
def pyFloatEqInt (b : Nat) (z : Int) : Bool :=
  if floatIsNaN b || floatIsInf b then false
  else floatToRat b == (z : Rat)

/-- Python == on constant values.  Two lambda objects compare by identity
in Python; in every comparison reachable in this development a lambda
value only ever meets the very object it was copied from
(Constant._reduce_constants returns self.value), so comparing the tags is
faithful there. -/
def pyValEq : PyVal → PyVal → Bool
  | .int a, .int b => a == b
  | .float a, .float b => pyFloatEqFloat a b
  | .int a, .float b => pyFloatEqInt b a
  | .float a, .int b => pyFloatEqInt a b
  | .lam a, .lam b => a == b
  | _, _ => false

/-- The expression tree.  Variable identities are byte strings; the print
alias is an optional UTF-8 byte string (Variable.__init__ normalises an
empty alias to None, modelled by mkVariable below). -/
inductive Expr
  | const (v : PyVal)
  | var (identity : List Nat) (print_alias : Option (List Nat))
  | wildcard (number : Nat)
  | plus (a b : Expr)
  | minus (a b : Expr)
  | neg (a : Expr)
  | times (a b : Expr)
  | divide (a b : Expr)
  | modulo (a b : Expr)
  | power (a b : Expr)
  | exp (a : Expr)
  | log (a : Expr)
  | cos (a : Expr)
  | sin (a : Expr)
  | abs (a : Expr)
  | sign (a : Expr)
  deriving DecidableEq

/-- Variable.__init__: a print_alias of None or "" is normalised to None
(the aliased display string is determined by these two fields, see
VariableData below). -/
def mkVariable (identity : List Nat) (print_alias : Option (List Nat)) : Expr :=
  match print_alias with
  | none => .var identity none
  | some a => if a = [] then .var identity none else .var identity (some a)

/-- Expression.head: the runtime class name. -/
def Expr.head : Expr → String
  | .const _ => "Constant"
  | .var _ _ => "Variable"
  | .wildcard _ => "Wildcard"
  | .plus _ _ => "Plus"
  | .minus _ _ => "Minus"
  | .neg _ => "Neg"
  | .times _ _ => "Times"
  | .divide _ _ => "Divide"
  | .modulo _ _ => "Modulo"
  | .power _ _ => "Power"
  | .exp _ => "Exp"
  | .log _ => "Log"
  | .cos _ => "Cos"
  | .sin _ => "Sin"
  | .abs _ => "Abs"
  | .sign _ => "Sign"

/-- full_identity.  Heads (class names) are compared first and the
comparison recurses only on equal heads, which coincides with comparing
constructors; Constant compares values with Python ==, Variable compares
identities only (the alias does not participate), Wildcard compares
numbers. -/
def full_identity : Expr → Expr → Bool
  | .const v, .const w => pyValEq v w
  | .var i _, .var j _ => i == j
  | .wildcard n, .wildcard m => n == m
  | .plus a b, .plus c d => full_identity a c && full_identity b d
  | .minus a b, .minus c d => full_identity a c && full_identity b d
  | .neg a, .neg b => full_identity a b
  | .times a b, .times c d => full_identity a c && full_identity b d
  | .divide a b, .divide c d => full_identity a c && full_identity b d
  | .modulo a b, .modulo c d => full_identity a c && full_identity b d
  | .power a b, .power c d => full_identity a c && full_identity b d
  | .exp a, .exp b => full_identity a b
  | .log a, .log b => full_identity a b
  | .cos a, .cos b => full_identity a b
  | .sin a, .sin b => full_identity a b
  | .abs a, .abs b => full_identity a b
  | .sign a, .sign b => full_identity a b
  | _, _ => false

/-- Expression.wildcard_numbers, as the list of wildcard ids (the Python
set is only ever tested for emptiness, membership and difference). -/
def wildcardNumbers : Expr → List Nat
  | .const _ => []
  | .var _ _ => []
  | .wildcard n => [n]
  | .plus a b => wildcardNumbers a ++ wildcardNumbers b
  | .minus a b => wildcardNumbers a ++ wildcardNumbers b
  | .neg a => wildcardNumbers a
  | .times a b => wildcardNumbers a ++ wildcardNumbers b
  | .divide a b => wildcardNumbers a ++ wildcardNumbers b
  | .modulo a b => wildcardNumbers a ++ wildcardNumbers b
  | .power a b => wildcardNumbers a ++ wildcardNumbers b
  | .exp a => wildcardNumbers a
  | .log a => wildcardNumbers a
  | .cos a => wildcardNumbers a
  | .sin a => wildcardNumbers a
  | .abs a => wildcardNumbers a
  | .sign a => wildcardNumbers a

/-- Whether a wildcard occurs anywhere in the tree (the Python code tests
len(e.wildcard_numbers) != 0). -/
def containsWildcard (e : Expr) : Bool := !(wildcardNumbers e).isEmpty

/-- wildcard_substitute: replace every Wildcard(wid) leaf, rebuilding the
interior nodes with their class constructors. -/
def wildcard_substitute : Expr → Nat → Expr → Expr
  | .const v, _, _ => .const v
  | .var i a, _, _ => .var i a
  | .wildcard n, wid, rep => if n = wid then rep else .wildcard n
  | .plus a b, wid, rep => .plus (wildcard_substitute a wid rep) (wildcard_substitute b wid rep)
  | .minus a b, wid, rep => .minus (wildcard_substitute a wid rep) (wildcard_substitute b wid rep)
  | .neg a, wid, rep => .neg (wildcard_substitute a wid rep)
  | .times a b, wid, rep => .times (wildcard_substitute a wid rep) (wildcard_substitute b wid rep)
  | .divide a b, wid, rep => .divide (wildcard_substitute a wid rep) (wildcard_substitute b wid rep)
  | .modulo a b, wid, rep => .modulo (wildcard_substitute a wid rep) (wildcard_substitute b wid rep)
  | .power a b, wid, rep => .power (wildcard_substitute a wid rep) (wildcard_substitute b wid rep)
  | .exp a, wid, rep => .exp (wildcard_substitute a wid rep)
  | .log a, wid, rep => .log (wildcard_substitute a wid rep)
  | .cos a, wid, rep => .cos (wildcard_substitute a wid rep)
  | .sin a, wid, rep => .sin (wildcard_substitute a wid rep)
  | .abs a, wid, rep => .abs (wildcard_substitute a wid rep)
  | .sign a, wid, rep => .sign (wildcard_substitute a wid rep)

/-! ## Matching engine (Expression.match / _match)

_match returns a dict id -> list of captured subtrees, modelled as an
association list in key-insertion order (a defaultdict(list)).  Failure
(the MatchFailure exception, caught inside match) is the None case. -/

abbrev MatchData := List (Nat × List Expr)

/-- output_dict[key] += values on a defaultdict(list). -/
def mdAppend (md : MatchData) (k : Nat) (vs : List Expr) : MatchData :=
  if md.any fun kv => kv.1 == k then
    md.map fun kv => if kv.1 == k then (kv.1, kv.2 ++ vs) else kv
  else md ++ [(k, vs)]

/-- Merging child match data into the accumulating dict, key by key. -/
def mdMerge (a b : MatchData) : MatchData :=
  b.foldl (fun acc kv => mdAppend acc kv.1 kv.2) a

/-- Expression._match (and its overrides in Wildcard, Constant and
Variable).  The head comparison of the generic case coincides with
same-constructor; the generic case zips the terms and merges their match
data into a fresh defaultdict. -/
def exprMatchAux : Expr → Expr → Option MatchData
  | .wildcard n, e => some [(n, [e])]
  | .const v, .const w => if pyValEq v w then some [] else none
  | .const _, _ => none
  | .var i _, .var j _ => if i == j then some [] else none
  | .var _ _, _ => none
  | .plus a b, .plus c d => do
    let m1 ← exprMatchAux a c
    let m2 ← exprMatchAux b d
    some (mdMerge (mdMerge [] m1) m2)
  | .plus _ _, _ => none
  | .minus a b, .minus c d => do
    let m1 ← exprMatchAux a c
    let m2 ← exprMatchAux b d
    some (mdMerge (mdMerge [] m1) m2)
  | .minus _ _, _ => none
  | .neg a, .neg b => do
    let m1 ← exprMatchAux a b
    some (mdMerge [] m1)
  | .neg _, _ => none
  | .times a b, .times c d => do
    let m1 ← exprMatchAux a c
    let m2 ← exprMatchAux b d
    some (mdMerge (mdMerge [] m1) m2)
  | .times _ _, _ => none
  | .divide a b, .divide c d => do
    let m1 ← exprMatchAux a c
    let m2 ← exprMatchAux b d
    some (mdMerge (mdMerge [] m1) m2)
  | .divide _ _, _ => none
  | .modulo a b, .modulo c d => do
    let m1 ← exprMatchAux a c
    let m2 ← exprMatchAux b d
    some (mdMerge (mdMerge [] m1) m2)
  | .modulo _ _, _ => none
  | .power a b, .power c d => do
    let m1 ← exprMatchAux a c
    let m2 ← exprMatchAux b d
    some (mdMerge (mdMerge [] m1) m2)
  | .power _ _, _ => none
  | .exp a, .exp b => do
    let m1 ← exprMatchAux a b
    some (mdMerge [] m1)
  | .exp _, _ => none
  | .log a, .log b => do
    let m1 ← exprMatchAux a b
    some (mdMerge [] m1)
  | .log _, _ => none
  | .cos a, .cos b => do
    let m1 ← exprMatchAux a b
    some (mdMerge [] m1)
  | .cos _, _ => none
  | .sin a, .sin b => do
    let m1 ← exprMatchAux a b
    some (mdMerge [] m1)
  | .sin _, _ => none
  | .abs a, .abs b => do
    let m1 ← exprMatchAux a b
    some (mdMerge [] m1)
  | .abs _, _ => none
  | .sign a, .sign b => do
    let m1 ← exprMatchAux a b
    some (mdMerge [] m1)
  | .sign _, _ => none

/-- Expression.match.  It first rejects a wildcard-containing subject with
MatchError, then runs _match catching MatchFailure (None).  The repeated-
wildcard consistency check calls ref.match(other) and DISCARDS the
result: match returns None instead of raising on mismatch, so the check
is dead code; its only possible effect is a MatchError when a captured
tail element contains a wildcard, which cannot happen for a wildcard-free
subject.  The returned dict keeps the first capture of each id. -/
def exprMatch (self e : Expr) : Except PyErr (Option (List (Nat × Expr))) :=
  if !(wildcardNumbers e).isEmpty then .error .matchError
  else
    match exprMatchAux self e with
    | none => .ok none
    | some md =>
      if md.any fun kv => 1 < kv.2.length && kv.2.tail.any containsWildcard then
        .error .matchError
      else .ok (some (md.map fun kv => (kv.1, kv.2.headD (.const (.int 0)))))

/-! ## Substitution engine (Expression.substitute / _substitute) -/

/-- Instantiating a target pattern with the bindings of a successful
match, one wildcard id after the other. -/
def applyBinding (tgt : Expr) (md : List (Nat × Expr)) : Expr :=
  md.foldl (fun r kv => wildcard_substitute r kv.1 kv.2) tgt

/-- The per-node tail of _substitute: match the source against the
(rebuilt) node; on success instantiate the target, else keep the node. -/
def substituteNode (node src tgt : Expr) : Except PyErr Expr :=
  match exprMatch src node with
  | .error e => .error e
  | .ok none => .ok node
  | .ok (some md) => .ok (applyBinding tgt md)

/-- Expression._substitute: leaves try the rule directly; Wildcard raises
SubstitutionError; interior nodes substitute in their children first,
rebuild, then try the rule on the rebuilt node. -/
def substituteAux : Expr → Expr → Expr → Except PyErr Expr
  | .wildcard _, _, _ => .error .substitutionError
  | .const v, src, tgt => substituteNode (.const v) src tgt
  | .var i al, src, tgt => substituteNode (.var i al) src tgt
  | .plus a b, src, tgt => do
    let na ← substituteAux a src tgt
    let nb ← substituteAux b src tgt
    substituteNode (.plus na nb) src tgt
  | .minus a b, src, tgt => do
    let na ← substituteAux a src tgt
    let nb ← substituteAux b src tgt
    substituteNode (.minus na nb) src tgt
  | .neg a, src, tgt => do
    let na ← substituteAux a src tgt
    substituteNode (.neg na) src tgt
  | .times a b, src, tgt => do
    let na ← substituteAux a src tgt
    let nb ← substituteAux b src tgt
    substituteNode (.times na nb) src tgt
  | .divide a b, src, tgt => do
    let na ← substituteAux a src tgt
    let nb ← substituteAux b src tgt
    substituteNode (.divide na nb) src tgt
  | .modulo a b, src, tgt => do
    let na ← substituteAux a src tgt
    let nb ← substituteAux b src tgt
    substituteNode (.modulo na nb) src tgt
  | .power a b, src, tgt => do
    let na ← substituteAux a src tgt
    let nb ← substituteAux b src tgt
    substituteNode (.power na nb) src tgt
  | .exp a, src, tgt => do
    let na ← substituteAux a src tgt
    substituteNode (.exp na) src tgt
  | .log a, src, tgt => do
    let na ← substituteAux a src tgt
    substituteNode (.log na) src tgt
  | .cos a, src, tgt => do
    let na ← substituteAux a src tgt
    substituteNode (.cos na) src tgt
  | .sin a, src, tgt => do
    let na ← substituteAux a src tgt
    substituteNode (.sin na) src tgt
  | .abs a, src, tgt => do
    let na ← substituteAux a src tgt
    substituteNode (.abs na) src tgt
  | .sign a, src, tgt => do
    let na ← substituteAux a src tgt
    substituteNode (.sign na) src tgt

/-- Expression.substitute: reject a target that uses wildcard ids absent
from the source (SubstitutionError), then run _substitute. -/
def substitute (self src tgt : Expr) : Except PyErr Expr :=
  if (wildcardNumbers tgt).any fun n => !(wildcardNumbers src).contains n then
    .error .substitutionError
  else substituteAux self src tgt

/-! ## Scalar operations (the dunder / numpy calls of the node classes)

Int arithmetic is exact.  Operations whose Python result would be a
freshly computed float (true division, int ** negative, numpy
transcendentals, any arithmetic touching a float operand) are outside the
embedding and return the marker error PyErr.floatOpUnmodelled; no theorem
below depends on such a branch.  A function-object operand raises
TypeError (no dunder on either side handles it). -/

/-- Expression._sanitise on a raw value: ints and floats become Constant
leaves, anything else (here: a function object) raises TypeError. -/
def sanitise : PyVal → Except PyErr Expr
  | .int z => .ok (.const (.int z))
  | .float b => .ok (.const (.float b))
  | .lam _ => .error .typeError

def pyAdd : PyVal → PyVal → Except PyErr PyVal
  | .int a, .int b => .ok (.int (a + b))
  | .lam _, _ => .error .typeError
  | _, .lam _ => .error .typeError
  | _, _ => .error .floatOpUnmodelled

def pySub : PyVal → PyVal → Except PyErr PyVal
  | .int a, .int b => .ok (.int (a - b))
  | .lam _, _ => .error .typeError
  | _, .lam _ => .error .typeError
  | _, _ => .error .floatOpUnmodelled

def pyMul : PyVal → PyVal → Except PyErr PyVal
  | .int a, .int b => .ok (.int (a * b))
  | .lam _, _ => .error .typeError
  | _, .lam _ => .error .typeError
  | _, _ => .error .floatOpUnmodelled

/-- Python true division: int / int yields a float (0 divisor raises). -/
def pyDiv : PyVal → PyVal → Except PyErr PyVal
  | .int _, .int b =>
    if b = 0 then .error .zeroDivisionError else .error .floatOpUnmodelled
  | .lam _, _ => .error .typeError
  | _, .lam _ => .error .typeError
  | _, _ => .error .floatOpUnmodelled

/-- Python %: on ints the remainder takes the divisor's sign (fmod). -/
def pyMod : PyVal → PyVal → Except PyErr PyVal
  | .int a, .int b =>
    if b = 0 then .error .zeroDivisionError else .ok (.int (Int.fmod a b))
  | .lam _, _ => .error .typeError
  | _, .lam _ => .error .typeError
  | _, _ => .error .floatOpUnmodelled

/-- Python **: exact on int base with non-negative int exponent;
0 ** negative raises ZeroDivisionError; a negative exponent otherwise
yields a float. -/
def pyPow : PyVal → PyVal → Except PyErr PyVal
  | .int a, .int b =>
    if b < 0 then
      if a = 0 then .error .zeroDivisionError else .error .floatOpUnmodelled
    else .ok (.int (a ^ b.toNat))
  | .lam _, _ => .error .typeError
  | _, .lam _ => .error .typeError
  | _, _ => .error .floatOpUnmodelled

/-- Unary minus; on a float this is an exact sign-bit flip. -/
def pyNeg : PyVal → Except PyErr PyVal
  | .int a => .ok (.int (-a))
  | .float b => .ok (.float (if b < 2 ^ 63 then b + 2 ^ 63 else b - 2 ^ 63))
  | .lam _ => .error .typeError

/-- abs(); on a float this exactly clears the sign bit. -/
def pyAbsVal : PyVal → Except PyErr PyVal
  | .int a => .ok (.int (if a < 0 then -a else a))
  | .float b => .ok (.float (if b < 2 ^ 63 then b else b - 2 ^ 63))
  | .lam _ => .error .typeError

/-- np.sign: exact on an int; on a float the result is a fresh float. -/
def npSign : PyVal → Except PyErr PyVal
  | .int a => .ok (.int (if 0 < a then 1 else if a < 0 then -1 else 0))
  | .float _ => .error .floatOpUnmodelled
  | .lam _ => .error .typeError

def npExp : PyVal → Except PyErr PyVal
  | .lam _ => .error .typeError
  | _ => .error .floatOpUnmodelled

def npLog : PyVal → Except PyErr PyVal
  | .lam _ => .error .typeError
  | _ => .error .floatOpUnmodelled

def npCos : PyVal → Except PyErr PyVal
  | .lam _ => .error .typeError
  | _ => .error .floatOpUnmodelled

def npSin : PyVal → Except PyErr PyVal
  | .lam _ => .error .typeError
  | _ => .error .floatOpUnmodelled

/-! ## Constant folding (reduce_constants / _reduce_constants) -/

/-- The dynamic result of _reduce_constants: an Expression, or a raw
value (a number, or the lambda Cos/Sin.expr_apply return). -/
inductive RCVal
  | expr (e : Expr)
  | val (v : PyVal)
  deriving DecidableEq

/-- The generic binary apply of _reduce_constants, for node classes whose
reflected dunder works: expr op expr and expr op value build the node via
the class constructor (sanitising the raw value); value op value runs the
scalar operation. -/
def rcBin (mk : Expr → Expr → Expr) (numOp : PyVal → PyVal → Except PyErr PyVal) :
    RCVal → RCVal → Except PyErr RCVal
  | .expr x, .expr y => .ok (.expr (mk x y))
  | .expr x, .val v =>
    match sanitise v with
    | .ok c => .ok (.expr (mk x c))
    | .error e => .error e
  | .val v, .expr y =>
    match sanitise v with
    | .ok c => .ok (.expr (mk c y))
    | .error e => .error e
  | .val v, .val w =>
    match numOp v w with
    | .ok r => .ok (.val r)
    | .error e => .error e

/-- Division is special: Expression defines __rdiv__ (the Python 2 name)
but not __rtruediv__, so value / expression finds no handler and raises
TypeError. -/
def rcDiv : RCVal → RCVal → Except PyErr RCVal
  | .expr x, .expr y => .ok (.expr (.divide x y))
  | .expr x, .val v =>
    match sanitise v with
    | .ok c => .ok (.expr (.divide x c))
    | .error e => .error e
  | .val _, .expr _ => .error .typeError
  | .val v, .val w =>
    match pyDiv v w with
    | .ok r => .ok (.val r)
    | .error e => .error e

/-- _reduce_constants.  Constant unwraps its value; Variable and Wildcard
return themselves.  Binary nodes reduce both children then apply.  Unary
dunder nodes (Neg, Abs) apply the dunder, which rebuilds the node on an
Expression child.  NonDunderUnary nodes (Exp, Log, Sign, Cos, Sin) call
expr_apply on an Expression child: Exp, Log and Sign rebuild the node, but
Cos.expr_apply and Sin.expr_apply return a fresh lambda (not an
Expression), which the caller then treats as a raw value. -/
def reduceConstantsAux : Expr → Except PyErr RCVal
  | .const v => .ok (.val v)
  | .var i al => .ok (.expr (.var i al))
  | .wildcard n => .ok (.expr (.wildcard n))
  | .plus a b => do
    let ra ← reduceConstantsAux a
    let rb ← reduceConstantsAux b
    rcBin .plus pyAdd ra rb
  | .minus a b => do
    let ra ← reduceConstantsAux a
    let rb ← reduceConstantsAux b
    rcBin .minus pySub ra rb
  | .neg a => do
    let ra ← reduceConstantsAux a
    match ra with
    | .expr x => .ok (.expr (.neg x))
    | .val v =>
      match pyNeg v with
      | .ok r => .ok (.val r)
      | .error e => .error e
  | .times a b => do
    let ra ← reduceConstantsAux a
    let rb ← reduceConstantsAux b
    rcBin .times pyMul ra rb
  | .divide a b => do
    let ra ← reduceConstantsAux a
    let rb ← reduceConstantsAux b
    rcDiv ra rb
  | .modulo a b => do
    let ra ← reduceConstantsAux a
    let rb ← reduceConstantsAux b
    rcBin .modulo pyMod ra rb
  | .power a b => do
    let ra ← reduceConstantsAux a
    let rb ← reduceConstantsAux b
    rcBin .power pyPow ra rb
  | .abs a => do
    let ra ← reduceConstantsAux a
    match ra with
    | .expr x => .ok (.expr (.abs x))
    | .val v =>
      match pyAbsVal v with
      | .ok r => .ok (.val r)
      | .error e => .error e
  | .exp a => do
    let ra ← reduceConstantsAux a
    match ra with
    | .expr x => .ok (.expr (.exp x))
    | .val v =>
      match npExp v with
      | .ok r => .ok (.val r)
      | .error e => .error e
  | .log a => do
    let ra ← reduceConstantsAux a
    match ra with
    | .expr x => .ok (.expr (.log x))
    | .val v =>
      match npLog v with
      | .ok r => .ok (.val r)
      | .error e => .error e
  | .sign a => do
    let ra ← reduceConstantsAux a
    match ra with
    | .expr x => .ok (.expr (.sign x))
    | .val v =>
      match npSign v with
      | .ok r => .ok (.val r)
      | .error e => .error e
  | .cos a => do
    let ra ← reduceConstantsAux a
    match ra with
    | .expr _ => .ok (.val (.lam .cosFn))
    | .val v =>
      match npCos v with
      | .ok r => .ok (.val r)
      | .error e => .error e
  | .sin a => do
    let ra ← reduceConstantsAux a
    match ra with
    | .expr _ => .ok (.val (.lam .sinFn))
    | .val v =>
      match npSin v with
      | .ok r => .ok (.val r)
      | .error e => .error e

/-- reduce_constants: wrap a raw result (a number, or a lambda!) back into
a Constant. -/
def reduce_constants (e : Expr) : Except PyErr Expr :=
  match reduceConstantsAux e with
  | .ok (.expr r) => .ok r
  | .ok (.val v) => .ok (.const v)
  | .error e2 => .error e2

/-! ## Simplifier (Expression.simplify and the rule table) -/

/-- simplification_substitutions, in source order, with
w1 = Wildcard(0), w2 = Wildcard(1), w3 = Wildcard(2); the raw 0 and 1
operands are sanitised into Constant leaves by the dunders. -/
def simplification_substitutions : List (Expr × Expr) :=
  [ (.plus (.wildcard 0) (.const (.int 0)), .wildcard 0),
    (.plus (.const (.int 0)) (.wildcard 0), .wildcard 0),
    (.times (.const (.int 1)) (.wildcard 0), .wildcard 0),
    (.times (.wildcard 0) (.const (.int 1)), .wildcard 0),
    (.minus (.wildcard 0) (.const (.int 0)), .wildcard 0),
    (.divide (.wildcard 0) (.const (.int 1)), .wildcard 0),
    (.power (.wildcard 0) (.const (.int 1)), .wildcard 0),
    (.times (.const (.int 0)) (.wildcard 0), .const (.int 0)),
    (.times (.wildcard 0) (.const (.int 0)), .const (.int 0)),
    (.power (.const (.int 1)) (.wildcard 0), .const (.int 1)),
    (.power (.wildcard 0) (.const (.int 0)), .const (.int 1)),
    (.minus (.wildcard 0) (.neg (.wildcard 1)), .plus (.wildcard 0) (.wildcard 1)),
    (.neg (.neg (.wildcard 0)), .wildcard 0),
    (.plus (.wildcard 0) (.neg (.wildcard 1)), .minus (.wildcard 0) (.wildcard 1)),
    (.plus (.neg (.wildcard 0)) (.wildcard 1), .minus (.wildcard 1) (.wildcard 0)),
    (.log (.const (.int 1)), .const (.int 0)),
    (.exp (.const (.int 0)), .const (.int 1)),
    (.times (.power (.wildcard 0) (.wildcard 1)) (.power (.wildcard 0) (.wildcard 2)),
      .power (.wildcard 0) (.plus (.wildcard 1) (.wildcard 2))),
    (.times (.exp (.wildcard 0)) (.exp (.wildcard 1)),
      .exp (.plus (.wildcard 0) (.wildcard 1))),
    (.plus (.log (.wildcard 0)) (.log (.wildcard 1)),
      .log (.times (.wildcard 0) (.wildcard 1))) ]

/-- One sweep over the rule table. -/
def applyRules (e : Expr) : Except PyErr Expr :=
  simplification_substitutions.foldlM (fun cur st => substitute cur st.1 st.2) e

/-- The simplify loop with its remaining fuel (max_iters): fold constants,
sweep the rules, stop at a structural fixed point; when the iteration cap
is reached the last tree is returned (the source merely logs a
warning). -/
def simplifyGo : Nat → Expr → Except PyErr Expr
  | 0, last => .ok last
  | fuel + 1, last => do
    let r1 ← reduce_constants last
    let r2 ← applyRules r1
    if full_identity r2 last then .ok r2 else simplifyGo fuel r2

/-- Expression.simplify with the default max_iters = 100. -/
def simplify (e : Expr) : Except PyErr Expr := simplifyGo 100 e

/-! ## Differentiator (Expression.diff / fast_diff / _diff) -/

/-- The differentiable property: False on Wildcard and Sign. -/
def differentiable : Expr → Bool
  | .wildcard _ => false
  | .sign _ => false
  | _ => true

/-- _diff with respect to the identity of the target variable.  Wildcard
and Sign do not override _diff, so the base class raises
NotImplementedError there.  Sin._diff and Cos._diff call the full
self.a.diff(term) (fast_diff then simplify, inlined here); in Times the
source builds Times(a, b._diff) before Times(a._diff, b), so b is
differentiated first. -/
def diffAux : Expr → List Nat → Except PyErr Expr
  | .const _, _ => .ok (.const (.int 0))
  | .var i _, v => .ok (if i = v then .const (.int 1) else .const (.int 0))
  | .wildcard _, _ => .error .notImplementedError
  | .sign _, _ => .error .notImplementedError
  | .plus a b, v => do
    let da ← diffAux a v
    let db ← diffAux b v
    .ok (.plus da db)
  | .minus a b, v => do
    let da ← diffAux a v
    let db ← diffAux b v
    .ok (.minus da db)
  | .neg a, v => do
    let da ← diffAux a v
    .ok (.neg da)
  | .times a b, v => do
    let db ← diffAux b v
    let da ← diffAux a v
    .ok (.plus (.times a db) (.times da b))
  | .divide a b, v => do
    let da ← diffAux a v
    let db ← diffAux b v
    .ok (.divide (.minus (.times da b) (.times a db)) (.power b (.const (.int 2))))
  | .modulo a _, v => diffAux a v
  | .power a b, v => do
    let da ← diffAux a v
    let db ← diffAux b v
    .ok (.times (.plus (.times (.times a db) (.log a)) (.times b da))
      (.power a (.minus b (.const (.int 1)))))
  | .exp a, v => do
    let da ← diffAux a v
    .ok (.times (.exp a) da)
  | .log a, v => do
    let da ← diffAux a v
    .ok (.divide da a)
  | .abs a, v => do
    let da ← diffAux a v
    .ok (.times (.sign a) da)
  | .cos a, v => do
    let d0 ← if differentiable a then diffAux a v else .error .typeError
    let d ← simplify d0
    .ok (.times (.neg d) (.sin a))
  | .sin a, v => do
    let d0 ← if differentiable a then diffAux a v else .error .typeError
    let d ← simplify d0
    .ok (.times d (.cos a))

/-- fast_diff: the differentiable check guards only the root node; when it
fails the raise of NonDifferentiableExpressionError itself raises
TypeError (broken __init__). -/
def fast_diff (e : Expr) (v : List Nat) : Except PyErr Expr :=
  if differentiable e then diffAux e v else .error .typeError

/-- diff = fast_diff then simplify. -/
def diff (e : Expr) (v : List Nat) : Except PyErr Expr := do
  let r ← fast_diff e v
  simplify r

/-! ## Evaluator (Expression.__call__) -/

/-- Evaluation under a binding from variable identities to values.
Variable.__call__ is a bare mapping lookup (a missing key raises the
dict's KeyError); Wildcard.__call__ raises EvaluationError; interior
nodes evaluate their children left to right, then apply the node's scalar
operation. -/
def evalExpr : Expr → (List Nat → Option PyVal) → Except PyErr PyVal
  | .const v, _ => .ok v
  | .var i _, env =>
    match env i with
    | some v => .ok v
    | none => .error .keyError
  | .wildcard _, _ => .error .evaluationError
  | .plus a b, env => do
    let va ← evalExpr a env
    let vb ← evalExpr b env
    pyAdd va vb
  | .minus a b, env => do
    let va ← evalExpr a env
    let vb ← evalExpr b env
    pySub va vb
  | .neg a, env => do
    let va ← evalExpr a env
    pyNeg va
  | .times a b, env => do
    let va ← evalExpr a env
    let vb ← evalExpr b env
    pyMul va vb
  | .divide a b, env => do
    let va ← evalExpr a env
    let vb ← evalExpr b env
    pyDiv va vb
  | .modulo a b, env => do
    let va ← evalExpr a env
    let vb ← evalExpr b env
    pyMod va vb
  | .power a b, env => do
    let va ← evalExpr a env
    let vb ← evalExpr b env
    pyPow va vb
  | .exp a, env => do
    let va ← evalExpr a env
    npExp va
  | .log a, env => do
    let va ← evalExpr a env
    npLog va
  | .cos a, env => do
    let va ← evalExpr a env
    npCos va
  | .sin a, env => do
    let va ← evalExpr a env
    npSin va
  | .abs a, env => do
    let va ← evalExpr a env
    pyAbsVal va
  | .sign a, env => do
    let va ← evalExpr a env
    npSign va

/-! ## Variable construction (Variable.__init__), claim C10 -/

/-- The display string stored in self.aliased: str(self.identity) (an
injective rendering of the identity bytes) or the alias itself. -/
inductive AliasDisplay
  | ofIdentity (b : List Nat)
  | ofAlias (s : List Nat)
  deriving DecidableEq

/-- The three attributes Variable.__init__ stores; every observation of a
Variable (equality, printing, the variable table, serialisation) is a
function of these fields. -/
structure VariableData where
  identity : List Nat
  print_alias : Option (List Nat)
  aliased : AliasDisplay
  deriving DecidableEq

/-- Variable.__init__: print_alias of None or "" lead to the same stored
state (print_alias = None, aliased = str(identity)). -/
def mkVariableData (identity : List Nat) (print_alias : Option (List Nat)) :
    VariableData :=
  match print_alias with
  | none => ⟨identity, none, .ofIdentity identity⟩
  | some a =>
    if a = [] then ⟨identity, none, .ofIdentity identity⟩
    else ⟨identity, some a, .ofAlias a⟩

/-! ## Expression serialisation (expression.py) -/

/-- The (identity, print_alias) pairs of the variable leaves, in
preorder. -/
def varOccs : Expr → List (List Nat × Option (List Nat))
  | .var i al => [(i, al)]
  | .const _ => []
  | .wildcard _ => []
  | .plus a b => varOccs a ++ varOccs b
  | .minus a b => varOccs a ++ varOccs b
  | .neg a => varOccs a
  | .times a b => varOccs a ++ varOccs b
  | .divide a b => varOccs a ++ varOccs b
  | .modulo a b => varOccs a ++ varOccs b
  | .power a b => varOccs a ++ varOccs b
  | .exp a => varOccs a
  | .log a => varOccs a
  | .cos a => varOccs a
  | .sin a => varOccs a
  | .abs a => varOccs a
  | .sign a => varOccs a

/-- The constant values of the tree, in preorder. -/
def constOccs : Expr → List PyVal
  | .const v => [v]
  | .var _ _ => []
  | .wildcard _ => []
  | .plus a b => constOccs a ++ constOccs b
  | .minus a b => constOccs a ++ constOccs b
  | .neg a => constOccs a
  | .times a b => constOccs a ++ constOccs b
  | .divide a b => constOccs a ++ constOccs b
  | .modulo a b => constOccs a ++ constOccs b
  | .power a b => constOccs a ++ constOccs b
  | .exp a => constOccs a
  | .log a => constOccs a
  | .cos a => constOccs a
  | .sin a => constOccs a
  | .abs a => constOccs a
  | .sign a => constOccs a

/-- Lexicographic byte-string order, as used by Python sorted() on
bytes. -/
def bytesLe : List Nat → List Nat → Bool
  | [], _ => true
  | _ :: _, [] => false
  | x :: xs, y :: ys =>
    if x < y then true else if y < x then false else bytesLe xs ys

abbrev VarTable := List (List Nat × Option (List Nat))

/-- Python dict assignment d[k] = v, preserving first-insertion order. -/
def dictSet (d : VarTable) (k : List Nat) (v : Option (List Nat)) : VarTable :=
  if d.any fun kv => kv.1 == k then
    d.map fun kv => if kv.1 == k then (k, v) else kv
  else d ++ [(k, v)]

/-- dict.update with a list of pairs. -/
def dictUpd (d : VarTable) (l : VarTable) : VarTable :=
  l.foldl (fun acc kv => dictSet acc kv.1 kv.2) d

/-- The sorted(alias_lookup.keys()) pass, rendered on the pair list as a
stable sort by identity. -/
def sortTable (l : VarTable) : VarTable :=
  List.insertionSort (fun p q => bytesLe p.1 q.1 = true) l

/-- One term of the Expression.variables loop: a Variable term is
recorded directly, any other term contributes its own variables() (the
precomputed tv) via dict.update. -/
def varStep (d : VarTable) (t : Expr) (tv : VarTable) : VarTable :=
  match t with
  | .var i al => dictSet d i al
  | _ => dictUpd d tv

/-- Expression.variables: a Variable root returns its own single pair;
any other node folds its terms into a dict keyed by identity (later
occurrences overwrite the alias) and returns the entries sorted by
identity.  Leaves other than Variable have no terms. -/
def exprVariables : Expr → VarTable
  | .var i al => [(i, al)]
  | .const _ => []
  | .wildcard _ => []
  | .plus a b => sortTable (varStep (varStep [] a (exprVariables a)) b (exprVariables b))
  | .minus a b => sortTable (varStep (varStep [] a (exprVariables a)) b (exprVariables b))
  | .neg a => sortTable (varStep [] a (exprVariables a))
  | .times a b => sortTable (varStep (varStep [] a (exprVariables a)) b (exprVariables b))
  | .divide a b => sortTable (varStep (varStep [] a (exprVariables a)) b (exprVariables b))
  | .modulo a b => sortTable (varStep (varStep [] a (exprVariables a)) b (exprVariables b))
  | .power a b => sortTable (varStep (varStep [] a (exprVariables a)) b (exprVariables b))
  | .exp a => sortTable (varStep [] a (exprVariables a))
  | .log a => sortTable (varStep [] a (exprVariables a))
  | .cos a => sortTable (varStep [] a (exprVariables a))
  | .sin a => sortTable (varStep [] a (exprVariables a))
  | .abs a => sortTable (varStep [] a (exprVariables a))
  | .sign a => sortTable (varStep [] a (exprVariables a))

/-- The payload bytes an alias is encoded from (None becomes the empty
bytestring). -/
def aliasBytes (al : Option (List Nat)) : List Nat := al.getD []

/-- _encode_variable_table_entry: the alias bytestring (None becomes the
empty payload) is built first, then identity and alias are concatenated
in (identity, alias) order. -/
def encodeTableEntry (identity : List Nat) (al : Option (List Nat)) :
    Except PyErr (List Nat) :=
  match encode_bytestring (aliasBytes al) with
  | .error e => .error e
  | .ok ab =>
    match encode_bytestring identity with
    | .error e => .error e
    | .ok ib => .ok (ib ++ ab)

/-- _decode_variable_table_entry_with_size: an alias whose consumed size
is exactly the 4-byte prefix (empty payload) decodes to None; UTF-8
decoding is the identity in the byte model of str. -/
def decodeTableEntry (data : List Nat) :
    Except PyErr ((List Nat × Option (List Nat)) × Nat) :=
  match decode_bytestring_with_size data with
  | .error e => .error e
  | .ok (identity, ilen) =>
    match decode_bytestring_with_size (data.drop ilen) with
    | .error e => .error e
    | .ok (ab, alen) =>
      .ok ((identity, if alen = 4 then none else some ab), ilen + alen)

/-- encode_variable_table: the guard n > variable_index_max = 256 ** 2
raises EncodingError (broken __init__, hence TypeError); a count of
exactly 2^16 passes the guard and overflows n.to_bytes(2, "big"); then
the u16 count is followed by the entries. -/
def encode_variable_table (vars : VarTable) : Except PyErr (List Nat) :=
  if 2 ^ 16 < vars.length then .error .typeError
  else if 2 ^ 16 ≤ vars.length then .error .overflowError
  else
    vars.foldlM (fun acc kv =>
      match encodeTableEntry kv.1 kv.2 with
      | .error e => .error e
      | .ok eb => .ok (acc ++ eb)) (toBytesBE 2 vars.length)

/-- The entry-reading loop of decode_variable_table_with_size, carrying
the running start_index. -/
def decodeTableEntries : Nat → List Nat → Nat → Except PyErr (VarTable × Nat)
  | 0, _, idx => .ok ([], idx)
  | k + 1, data, idx =>
    decodeTableEntry (data.drop idx) >>= fun el =>
      decodeTableEntries k data (idx + el.2) >>= fun et =>
        .ok (el.1 :: et.1, et.2)

/-- decode_variable_table_with_size: u16 count, then the entries. -/
def decode_variable_table_with_size (data : List Nat) :
    Except PyErr (VarTable × Nat) :=
  decodeTableEntries (fromBytesBE (data.take 2)) data 2

/-- encode_numeric on a Constant's (scalar) value; a lambda value reaches
NoNumberEncoding, whose broken __init__ raises TypeError. -/
def encodeConstVal : PyVal → Except PyErr (List Nat)
  | .int z => encode_numeric (.int z)
  | .float b => encode_numeric (.float b)
  | .lam _ => .error .typeError

/-- The value read back for a Constant.  An array payload would produce a
Constant holding an ndarray, which the scalar Expr model does not
represent (no claim involves it). -/
def decodeConstVal (data : List Nat) : Except PyErr (PyVal × Nat) :=
  decode_numeric_with_size data >>= fun r =>
    match r.1 with
    | .int z => .ok (.int z, r.2)
    | .float b => .ok (.float b, r.2)
    | .intArr _ _ => .error .arrayConstUnmodelled
    | .floatArr _ _ => .error .arrayConstUnmodelled

/-- The variable_lookup dict built by serialise, as a positional lookup
in the sorted identity list (identities are distinct). -/
def lookupIdx (ids : List (List Nat)) (i : List Nat) : Option Nat :=
  match ids with
  | [] => none
  | x :: xs => if x == i then some 0 else (lookupIdx xs i).map (· + 1)

/-- Expression._serialise with the identity -> index lookup that
serialise builds: the one tag byte from expression_encoding, then the
per-class payload.  Wildcard has no encoding entry: _serialise returns
None and the surrounding bytes + None concatenation raises TypeError.
A Variable identity missing from the lookup raises KeyError; an index
beyond 2 bytes would overflow to_bytes. -/
def serialiseBody : Expr → List (List Nat) → Except PyErr (List Nat)
  | .const v, _ => encodeConstVal v >>= fun nb => .ok (1 :: nb)
  | .var i _, ids =>
    match lookupIdx ids i with
    | none => .error .keyError
    | some idx =>
      if 2 ^ 16 ≤ idx then .error .overflowError
      else .ok (2 :: toBytesBE 2 idx)
  | .wildcard _, _ => .error .typeError
  | .plus a b, ids =>
    serialiseBody a ids >>= fun ab =>
      serialiseBody b ids >>= fun bb => .ok (3 :: (ab ++ bb))
  | .minus a b, ids =>
    serialiseBody a ids >>= fun ab =>
      serialiseBody b ids >>= fun bb => .ok (4 :: (ab ++ bb))
  | .neg a, ids =>
    serialiseBody a ids >>= fun ab => .ok (5 :: ab)
  | .times a b, ids =>
    serialiseBody a ids >>= fun ab =>
      serialiseBody b ids >>= fun bb => .ok (6 :: (ab ++ bb))
  | .divide a b, ids =>
    serialiseBody a ids >>= fun ab =>
      serialiseBody b ids >>= fun bb => .ok (7 :: (ab ++ bb))
  | .modulo a b, ids =>
    serialiseBody a ids >>= fun ab =>
      serialiseBody b ids >>= fun bb => .ok (8 :: (ab ++ bb))
  | .power a b, ids =>
    serialiseBody a ids >>= fun ab =>
      serialiseBody b ids >>= fun bb => .ok (9 :: (ab ++ bb))
  | .exp a, ids =>
    serialiseBody a ids >>= fun ab => .ok (10 :: ab)
  | .log a, ids =>
    serialiseBody a ids >>= fun ab => .ok (11 :: ab)
  | .cos a, ids =>
    serialiseBody a ids >>= fun ab => .ok (12 :: ab)
  | .sin a, ids =>
    serialiseBody a ids >>= fun ab => .ok (13 :: ab)
  | .abs a, ids =>
    serialiseBody a ids >>= fun ab => .ok (14 :: ab)
  | .sign a, ids =>
    serialiseBody a ids >>= fun ab => .ok (15 :: ab)

/-- Expression.serialise: gather the variable table, build the
identity -> index lookup from the same sorted list, then emit the table
followed by the body. -/
def serialise (e : Expr) : Except PyErr (List Nat) :=
  match encode_variable_table (exprVariables e) with
  | .error e2 => .error e2
  | .ok table =>
    match serialiseBody e ((exprVariables e).map fun kv => kv.1) with
    | .error e2 => .error e2
    | .ok body => .ok (table ++ body)

/-- Expression._deserialise_with_size: one tag byte (int.from_bytes of an
empty slice is 0; an ordinal absent from expression_decoding raises
KeyError), then the per-class payload; a Variable is looked up in the
decoded table (IndexError when out of range).  The recursion consumes at
least one byte per node; it is realised structurally over a fuel
argument so that the definition computes, with the wrapper below passing
the input length as fuel (the fuel-insufficient branch is unreachable
under that call pattern). -/
def deserialiseBodyF : Nat → List Nat → List Expr → Except PyErr (Expr × Nat)
  | _, [], _ => .error .keyError
  | 0, _ :: _, _ => .error .keyError
  | fuel + 1, d :: rest, vars =>
    if d = 1 then
      decodeConstVal rest >>= fun r => .ok (.const r.1, 1 + r.2)
    else if d = 2 then
      match vars[fromBytesBE (rest.take 2)]? with
      | none => .error .indexError
      | some ve => .ok (ve, 1 + 2)
    else if d = 3 then
      deserialiseBodyF fuel rest vars >>= fun ra =>
        deserialiseBodyF fuel (rest.drop ra.2) vars >>= fun rb =>
          .ok (.plus ra.1 rb.1, 1 + (ra.2 + rb.2))
    else if d = 4 then
      deserialiseBodyF fuel rest vars >>= fun ra =>
        deserialiseBodyF fuel (rest.drop ra.2) vars >>= fun rb =>
          .ok (.minus ra.1 rb.1, 1 + (ra.2 + rb.2))
    else if d = 5 then
      deserialiseBodyF fuel rest vars >>= fun ra => .ok (.neg ra.1, 1 + ra.2)
    else if d = 6 then
      deserialiseBodyF fuel rest vars >>= fun ra =>
        deserialiseBodyF fuel (rest.drop ra.2) vars >>= fun rb =>
          .ok (.times ra.1 rb.1, 1 + (ra.2 + rb.2))
    else if d = 7 then
      deserialiseBodyF fuel rest vars >>= fun ra =>
        deserialiseBodyF fuel (rest.drop ra.2) vars >>= fun rb =>
          .ok (.divide ra.1 rb.1, 1 + (ra.2 + rb.2))
    else if d = 8 then
      deserialiseBodyF fuel rest vars >>= fun ra =>
        deserialiseBodyF fuel (rest.drop ra.2) vars >>= fun rb =>
          .ok (.modulo ra.1 rb.1, 1 + (ra.2 + rb.2))
    else if d = 9 then
      deserialiseBodyF fuel rest vars >>= fun ra =>
        deserialiseBodyF fuel (rest.drop ra.2) vars >>= fun rb =>
          .ok (.power ra.1 rb.1, 1 + (ra.2 + rb.2))
    else if d = 10 then
      deserialiseBodyF fuel rest vars >>= fun ra => .ok (.exp ra.1, 1 + ra.2)
    else if d = 11 then
      deserialiseBodyF fuel rest vars >>= fun ra => .ok (.log ra.1, 1 + ra.2)
    else if d = 12 then
      deserialiseBodyF fuel rest vars >>= fun ra => .ok (.cos ra.1, 1 + ra.2)
    else if d = 13 then
      deserialiseBodyF fuel rest vars >>= fun ra => .ok (.sin ra.1, 1 + ra.2)
    else if d = 14 then
      deserialiseBodyF fuel rest vars >>= fun ra => .ok (.abs ra.1, 1 + ra.2)
    else if d = 15 then
      deserialiseBodyF fuel rest vars >>= fun ra => .ok (.sign ra.1, 1 + ra.2)
    else .error .keyError

/-- Wrapper instantiating the fuel with the input length, which always
suffices (each decoded node consumes at least its tag byte). -/
def deserialiseBody (data : List Nat) (vars : List Expr) : Except PyErr (Expr × Nat) :=
  deserialiseBodyF data.length data vars

/-- Expression.deserialise_with_size: decode the variable table, build
the Variable objects (through Variable.__init__, which normalises the
alias), then decode the body against them. -/
def deserialise_with_size (data : List Nat) : Except PyErr (Expr × Nat) :=
  match decode_variable_table_with_size data with
  | .error e => .error e
  | .ok (table, tlen) =>
    match deserialiseBody (data.drop tlen) (table.map fun kv => mkVariable kv.1 kv.2) with
    | .error e => .error e
    | .ok (e2, elen) => .ok (e2, tlen + elen)

/-- Expression.deserialise. -/
def deserialise (data : List Nat) : Except PyErr Expr :=
  match deserialise_with_size data with
  | .error e => .error e
  | .ok (e2, _) => .ok e2

/-! ## Expected byte shapes and side conditions for the round trip -/

/-- The bytes of one variable-table entry. -/
def tableEntryBytes (i : List Nat) (al : Option (List Nat)) : List Nat :=
  (toBytesBE 4 i.length ++ i) ++ (toBytesBE 4 (aliasBytes al).length ++ aliasBytes al)

/-- The concatenated entry bytes of a table. -/
def entriesFlat (l : VarTable) : List Nat :=
  (l.map fun kv => tableEntryBytes kv.1 kv.2).flatten

/-- The bytes of a whole encoded variable table. -/
def tableBytes (l : VarTable) : List Nat :=
  toBytesBE 2 l.length ++ entriesFlat l

/-- A constant value the serialisation round trip preserves: an int in
int32 range, or a non-NaN double (NaN round-trips bit-for-bit but is not
equal to itself under Python ==, breaking full_identity). -/
def ConstGood (v : PyVal) : Prop :=
  match v with
  | .int z => -(2 ^ 31) ≤ z ∧ z < 2 ^ 31
  | .float b => b < 2 ^ 64 ∧ floatIsNaN b = false
  | .lam _ => False

instance (v : PyVal) : Decidable (ConstGood v) := by
  cases v <;> simp only [ConstGood] <;> infer_instance

/-- A table entry the codec round-trips: the identity and alias payloads
fit the u32 length prefix and the alias is normalised (never some ""). -/
def EntryGood (p : List Nat × Option (List Nat)) : Prop :=
  p.1.length < 2 ^ 32 ∧ (aliasBytes p.2).length < 2 ^ 32 ∧ p.2 ≠ some []

instance (p : List Nat × Option (List Nat)) : Decidable (EntryGood p) := by
  simp only [EntryGood]
  infer_instance

/-- The relation between a variable table and the occurrence list it was
gathered from: every entry is one of the occurrences, every occurrence's
identity has an entry, and the keys are distinct. -/
def TableGoodFor (tbl occs : VarTable) : Prop :=
  (∀ p ∈ tbl, p ∈ occs) ∧ (∀ p ∈ occs, ∃ al, (p.1, al) ∈ tbl) ∧
    (tbl.map Prod.fst).Nodup

/-! ## Theorems -/

theorem toBytesBE_length (k n : Nat) : (toBytesBE k n).length = k := by
  induction k generalizing n with
  | zero => rfl
  | succ k ih => simp [toBytesBE, ih]

theorem toBytesLE_length (k n : Nat) : (toBytesLE k n).length = k := by
  induction k generalizing n with
  | zero => rfl
  | succ k ih => simp [toBytesLE, ih]

theorem fromBytesBE_append_single (l : List Nat) (x : Nat) :
    fromBytesBE (l ++ [x]) = 256 * fromBytesBE l + x := by
  simp [fromBytesBE, List.foldl_append]

theorem fromBytesBE_toBytesBE (k n : Nat) (h : n < 256 ^ k) :
    fromBytesBE (toBytesBE k n) = n := by
  induction k generalizing n with
  | zero =>
    simp [pow_zero] at h
    simp [toBytesBE, fromBytesBE, h]
  | succ k ih =>
    have hdiv : n / 256 < 256 ^ k := by
      rw [Nat.div_lt_iff_lt_mul (by norm_num : 0 < 256)]
      calc n < 256 ^ (k + 1) := h
        _ = 256 ^ k * 256 := by ring
    rw [toBytesBE, fromBytesBE_append_single, ih _ hdiv]
    omega

theorem fromBytesLE_toBytesLE (k n : Nat) (h : n < 256 ^ k) :
    fromBytesLE (toBytesLE k n) = n := by
  induction k generalizing n with
  | zero =>
    simp [pow_zero] at h
    simp [toBytesLE, fromBytesLE, h]
  | succ k ih =>
    have hdiv : n / 256 < 256 ^ k := by
      rw [Nat.div_lt_iff_lt_mul (by norm_num : 0 < 256)]
      calc n < 256 ^ (k + 1) := h
        _ = 256 ^ k * 256 := by ring
    rw [toBytesLE, fromBytesLE, ih _ hdiv]
    omega

theorem toSigned32_int32 (z : Int) (h1 : -(2 ^ 31) ≤ z) (h2 : z < 2 ^ 31) :
    toSigned32 (z % 2 ^ 32).toNat = z := by
  simp only [toSigned32]
  split <;> omega

theorem emod32_toNat_lt (z : Int) : (z % 2 ^ 32).toNat < 2 ^ 32 := by omega

theorem int32Bytes_length (z : Int) : (int32Bytes z).length = 4 :=
  toBytesLE_length 4 _

theorem fromBytesLE_int32Bytes (z : Int) :
    fromBytesLE (int32Bytes z) = (z % 2 ^ 32).toNat :=
  fromBytesLE_toBytesLE 4 _ (emod32_toNat_lt z)

theorem flatten_length_const (w : Nat) (blocks : List (List Nat))
    (hb : ∀ b ∈ blocks, b.length = w) :
    blocks.flatten.length = w * blocks.length := by
  induction blocks with
  | nil => simp
  | cons b bs ih =>
    have h1 : b.length = w := hb b (List.mem_cons_self b bs)
    have h2 := ih fun x hx => hb x (List.mem_cons_of_mem b hx)
    simp only [List.flatten_cons, List.length_append, List.length_cons, h1, h2]
    ring

/-- Reading back a flat buffer of fixed-width blocks slice by slice. -/
theorem sliceMap {β : Type} (w : Nat) (blocks : List (List Nat))
    (hb : ∀ b ∈ blocks, b.length = w) (tail : List Nat) (g : List Nat → β) :
    (List.range blocks.length).map
        (fun i => g (((blocks.flatten ++ tail).drop (w * i)).take w)) =
      blocks.map g := by
  induction blocks generalizing tail with
  | nil => simp
  | cons b bs ih =>
    have hbl : b.length = w := hb b (List.mem_cons_self b bs)
    have hrest : ∀ x ∈ bs, x.length = w := fun x hx => hb x (List.mem_cons_of_mem b hx)
    rw [List.length_cons, List.range_succ_eq_map, List.map_cons, List.map_map,
      List.map_cons]
    congr 1
    · simp only [Nat.mul_zero, List.drop_zero]
      rw [List.flatten_cons, List.append_assoc, ← hbl, List.take_left]
    · rw [← ih hrest tail]
      apply List.map_congr_left
      intro i _
      simp only [Function.comp_apply, Nat.succ_eq_add_one]
      have harith : w * (i + 1) = b.length + w * i := by rw [hbl]; ring
      rw [List.flatten_cons, List.append_assoc, harith, List.drop_append]

theorem decode_scalar_int (z : Int) (h1 : -(2 ^ 31) ≤ z) (h2 : z < 2 ^ 31)
    (rest : List Nat) :
    decode_numeric_with_size ((0 : Nat) :: (int32Bytes z ++ rest)) =
      .ok (.int z, 5) := by
  have hlen : (int32Bytes z).length = 4 := int32Bytes_length z
  have htake : (int32Bytes z ++ rest).take 4 = int32Bytes z := by
    rw [← hlen]; exact List.take_left _ _
  have hself : (int32Bytes z).take 4 = int32Bytes z := by
    rw [← hlen]; exact List.take_length _
  simp only [decode_numeric_with_size]
  norm_num [htake, hself, hlen, List.range_succ_eq_map, fromBytesLE_int32Bytes]
  exact toSigned32_int32 z h1 h2

theorem decode_scalar_float (bits : Nat) (h : bits < 2 ^ 64) (rest : List Nat) :
    decode_numeric_with_size ((1 : Nat) :: (toBytesLE 8 bits ++ rest)) =
      .ok (.float bits, 9) := by
  have hlen : (toBytesLE 8 bits).length = 8 := toBytesLE_length 8 bits
  have htake : (toBytesLE 8 bits ++ rest).take 8 = toBytesLE 8 bits := by
    rw [← hlen]; exact List.take_left _ _
  have hself : (toBytesLE 8 bits).take 8 = toBytesLE 8 bits := by
    rw [← hlen]; exact List.take_length _
  simp only [decode_numeric_with_size]
  norm_num [htake, hself, hlen, List.range_succ_eq_map]
  exact fromBytesLE_toBytesLE 8 bits h

theorem sliceMapNil {β : Type} (w : Nat) (blocks : List (List Nat))
    (hb : ∀ b ∈ blocks, b.length = w) (g : List Nat → β) :
    (List.range blocks.length).map
        (fun i => g ((blocks.flatten.drop (w * i)).take w)) = blocks.map g := by
  have h := sliceMap w blocks hb [] g
  simpa using h

theorem decode_int_array (shape : List Nat) (data : List Int) (rest : List Nat)
    (hL1 : 1 ≤ shape.length)
    (hdim : ∀ d ∈ shape, d < 2 ^ 32)
    (hcnt : data.length = shape.prod)
    (helems : ∀ z ∈ data, -(2 ^ 31) ≤ z ∧ z < 2 ^ 31) :
    decode_numeric_with_size
        ((2 * shape.length) ::
          ((shape.map (toBytesBE 4)).flatten ++ ((data.map int32Bytes).flatten ++ rest))) =
      .ok (.intArr shape data, 1 + 4 * shape.length + 4 * shape.prod) := by
  have hblocks4 : ∀ b ∈ shape.map (toBytesBE 4), b.length = 4 := by
    intro b hb
    obtain ⟨d, _, rfl⟩ := List.mem_map.mp hb
    exact toBytesBE_length 4 d
  have heblocks : ∀ b ∈ data.map int32Bytes, b.length = 4 := by
    intro b hb
    obtain ⟨zz, _, rfl⟩ := List.mem_map.mp hb
    exact int32Bytes_length zz
  have hsbfLen : (shape.map (toBytesBE 4)).flatten.length = 4 * shape.length := by
    rw [flatten_length_const 4 _ hblocks4, List.length_map]
  have hebfLen : (data.map int32Bytes).flatten.length = 4 * shape.prod := by
    rw [flatten_length_const 4 _ heblocks, List.length_map, hcnt]
  have hmod : (2 * shape.length) % 2 = 0 := by omega
  have hdiv : (2 * shape.length) / 2 = shape.length := by omega
  have hL0 : ¬ shape.length = 0 := by omega
  -- the decoded shape list is the original shape
  have hshape :
      (List.range shape.length).map
          (fun i => fromBytesBE ((((shape.map (toBytesBE 4)).flatten ++
            ((data.map int32Bytes).flatten ++ rest)).drop (4 * i)).take 4)) = shape := by
    have h := sliceMap 4 (shape.map (toBytesBE 4)) hblocks4
      ((data.map int32Bytes).flatten ++ rest) fromBytesBE
    rw [List.length_map] at h
    rw [h, List.map_map]
    have : ∀ d ∈ shape, (fromBytesBE ∘ toBytesBE 4) d = id d := by
      intro d hd
      simp only [Function.comp_apply, id]
      exact fromBytesBE_toBytesBE 4 d (hdim d hd)
    rw [List.map_congr_left this, List.map_id]
  -- the payload slice is exactly the element buffer
  have hdrop : (((shape.map (toBytesBE 4)).flatten ++
        ((data.map int32Bytes).flatten ++ rest)).drop (4 * shape.length)) =
      (data.map int32Bytes).flatten ++ rest := by
    rw [← hsbfLen, List.drop_left]
  have hdb : ((data.map int32Bytes).flatten ++ rest).take (4 * shape.prod) =
      (data.map int32Bytes).flatten := by
    rw [← hebfLen]; exact List.take_left _ _
  -- the decoded elements are the original data
  have helemdec :
      (List.range shape.prod).map
          (fun i => fromBytesLE (((data.map int32Bytes).flatten.drop (4 * i)).take 4)) =
        data.map (fun zz => (zz % 2 ^ 32).toNat) := by
    have h := sliceMapNil 4 (data.map int32Bytes) heblocks fromBytesLE
    rw [List.length_map, hcnt] at h
    rw [h, List.map_map]
    apply List.map_congr_left
    intro zz _
    simp only [Function.comp_apply]
    exact fromBytesLE_int32Bytes zz
  have hback : (data.map (fun zz => (zz % 2 ^ 32).toNat)).map toSigned32 = data := by
    rw [List.map_map]
    have : ∀ zz ∈ data, (toSigned32 ∘ fun zz => (zz % 2 ^ 32).toNat) zz = id zz := by
      intro zz hz
      simp only [Function.comp_apply, id]
      exact toSigned32_int32 zz (helems zz hz).1 (helems zz hz).2
    rw [List.map_congr_left this, List.map_id]
  simp only [decode_numeric_with_size, hmod, hdiv, List.drop_succ_cons,
    reduceIte, hshape]
  rw [Nat.add_comm 1 (4 * shape.length), List.drop_succ_cons, hdrop, hdb, hebfLen]
  simp only [Nat.mul_mod_right, Nat.mul_div_cancel_left _ (by norm_num : (0:Nat) < 4),
    hL0, helemdec, hback, reduceIte, if_neg]
  norm_num

theorem decode_float_array (shape : List Nat) (data : List Nat) (rest : List Nat)
    (hL1 : 1 ≤ shape.length)
    (hdim : ∀ d ∈ shape, d < 2 ^ 32)
    (hcnt : data.length = shape.prod)
    (helems : ∀ b ∈ data, b < 2 ^ 64) :
    decode_numeric_with_size
        ((2 * shape.length + 1) ::
          ((shape.map (toBytesBE 4)).flatten ++ ((data.map (toBytesLE 8)).flatten ++ rest))) =
      .ok (.floatArr shape data, 1 + 4 * shape.length + 8 * shape.prod) := by
  have hblocks4 : ∀ b ∈ shape.map (toBytesBE 4), b.length = 4 := by
    intro b hb
    obtain ⟨d, _, rfl⟩ := List.mem_map.mp hb
    exact toBytesBE_length 4 d
  have heblocks : ∀ b ∈ data.map (toBytesLE 8), b.length = 8 := by
    intro b hb
    obtain ⟨zz, _, rfl⟩ := List.mem_map.mp hb
    exact toBytesLE_length 8 zz
  have hsbfLen : (shape.map (toBytesBE 4)).flatten.length = 4 * shape.length := by
    rw [flatten_length_const 4 _ hblocks4, List.length_map]
  have hebfLen : (data.map (toBytesLE 8)).flatten.length = 8 * shape.prod := by
    rw [flatten_length_const 8 _ heblocks, List.length_map, hcnt]
  have hmod : (2 * shape.length + 1) % 2 = 1 := by omega
  have hdiv : (2 * shape.length + 1) / 2 = shape.length := by omega
  have hL0 : ¬ shape.length = 0 := by omega
  have hshape :
      (List.range shape.length).map
          (fun i => fromBytesBE ((((shape.map (toBytesBE 4)).flatten ++
            ((data.map (toBytesLE 8)).flatten ++ rest)).drop (4 * i)).take 4)) = shape := by
    have h := sliceMap 4 (shape.map (toBytesBE 4)) hblocks4
      ((data.map (toBytesLE 8)).flatten ++ rest) fromBytesBE
    rw [List.length_map] at h
    rw [h, List.map_map]
    have : ∀ d ∈ shape, (fromBytesBE ∘ toBytesBE 4) d = id d := by
      intro d hd
      simp only [Function.comp_apply, id]
      exact fromBytesBE_toBytesBE 4 d (hdim d hd)
    rw [List.map_congr_left this, List.map_id]
  have hdrop : (((shape.map (toBytesBE 4)).flatten ++
        ((data.map (toBytesLE 8)).flatten ++ rest)).drop (4 * shape.length)) =
      (data.map (toBytesLE 8)).flatten ++ rest := by
    rw [← hsbfLen, List.drop_left]
  have hdb : ((data.map (toBytesLE 8)).flatten ++ rest).take (8 * shape.prod) =
      (data.map (toBytesLE 8)).flatten := by
    rw [← hebfLen]; exact List.take_left _ _
  have helemdec :
      (List.range shape.prod).map
          (fun i => fromBytesLE (((data.map (toBytesLE 8)).flatten.drop (8 * i)).take 8)) =
        data := by
    have h := sliceMapNil 8 (data.map (toBytesLE 8)) heblocks fromBytesLE
    rw [List.length_map, hcnt] at h
    rw [h, List.map_map]
    have : ∀ b ∈ data, (fromBytesLE ∘ toBytesLE 8) b = id b := by
      intro b hb
      simp only [Function.comp_apply, id]
      exact fromBytesLE_toBytesLE 8 b (helems b hb)
    rw [List.map_congr_left this, List.map_id]
  have hds : (if (1 : Nat) = 0 then (4 : Nat) else 8) = 8 := by norm_num
  simp only [decode_numeric_with_size, hmod, hdiv, List.drop_succ_cons,
    reduceIte, hds, hshape]
  rw [Nat.add_comm 1 (4 * shape.length), List.drop_succ_cons, hdrop, hdb, hebfLen]
  simp only [Nat.mul_mod_right, Nat.mul_div_cancel_left _ (by norm_num : (0:Nat) < 8),
    hL0, helemdec, reduceIte, if_neg]
  norm_num

theorem encodeShape_ok (shape : List Nat) (hdim : ∀ d ∈ shape, d < 2 ^ 32) :
    encodeShape shape = .ok ((shape.map (toBytesBE 4)).flatten) := by
  induction shape with
  | nil => rfl
  | cons d ds ih =>
    have hd : ¬ (2 ^ 32 ≤ d) := by
      have := hdim d (List.mem_cons_self d ds); omega
    rw [encodeShape, if_neg hd, ih fun x hx => hdim x (List.mem_cons_of_mem d hx)]
    simp

theorem encodeArray_ok (flag : Nat) (shape elemBytes : List Nat)
    (hL : shape.length ≤ 127) (hdim : ∀ d ∈ shape, d < 2 ^ 32) :
    encodeArray flag shape elemBytes =
      .ok ((2 * shape.length + flag) :: ((shape.map (toBytesBE 4)).flatten ++ elemBytes)) := by
  rw [encodeArray, if_neg (by omega), encodeShape_ok shape hdim]

/-- Round trip of the numeric codec on encodable values, with an arbitrary
byte suffix (decode stops after the declared payload). -/
theorem decode_encode_numeric (v : NumValue) (hv : NumGood v) :
    ∃ enc, encode_numeric v = .ok enc ∧
      ∀ rest, decode_numeric_with_size (enc ++ rest) = .ok (v, enc.length) := by
  cases v with
  | int z =>
    obtain ⟨h1, h2⟩ := hv
    refine ⟨(0 : Nat) :: int32Bytes z, ?_, fun rest => ?_⟩
    · rw [encode_numeric, if_neg (by omega),
        encodeArray_ok 0 [] (int32Bytes z) (by simp) (by simp)]
      simp
    · have h := decode_scalar_int z h1 h2 rest
      have hlen : ((0 : Nat) :: int32Bytes z).length = 5 := by
        simp [int32Bytes_length]
      rw [List.cons_append, hlen]
      exact h
  | float bits =>
    refine ⟨(1 : Nat) :: toBytesLE 8 bits, ?_, fun rest => ?_⟩
    · rw [encode_numeric, encodeArray_ok 1 [] (toBytesLE 8 bits) (by simp) (by simp)]
      simp
    · have h := decode_scalar_float bits hv rest
      have hlen : ((1 : Nat) :: toBytesLE 8 bits).length = 9 := by
        simp [toBytesLE_length]
      rw [List.cons_append, hlen]
      exact h
  | intArr shape data =>
    obtain ⟨hL1, hL127, hdim, hcnt, helems⟩ := hv
    refine ⟨(2 * shape.length) ::
      ((shape.map (toBytesBE 4)).flatten ++ (data.map int32Bytes).flatten), ?_, fun rest => ?_⟩
    · rw [encode_numeric, encodeArray_ok 0 shape _ hL127 hdim]
      norm_num
    · have h := decode_int_array shape data rest hL1 hdim hcnt helems
      have hlen : ((2 * shape.length) ::
          ((shape.map (toBytesBE 4)).flatten ++ (data.map int32Bytes).flatten)).length =
            1 + 4 * shape.length + 4 * shape.prod := by
        have h1 : (shape.map (toBytesBE 4)).flatten.length = 4 * shape.length := by
          rw [flatten_length_const 4 _ (by
            intro b hb
            obtain ⟨d, _, rfl⟩ := List.mem_map.mp hb
            exact toBytesBE_length 4 d), List.length_map]
        have h2 : (data.map int32Bytes).flatten.length = 4 * shape.prod := by
          rw [flatten_length_const 4 _ (by
            intro b hb
            obtain ⟨zz, _, rfl⟩ := List.mem_map.mp hb
            exact int32Bytes_length zz), List.length_map, hcnt]
        simp [h1, h2]
        omega
      rw [List.cons_append, List.append_assoc, hlen]
      exact h
  | floatArr shape data =>
    obtain ⟨hL1, hL127, hdim, hcnt, helems⟩ := hv
    refine ⟨(2 * shape.length + 1) ::
      ((shape.map (toBytesBE 4)).flatten ++ (data.map (toBytesLE 8)).flatten), ?_, fun rest => ?_⟩
    · rw [encode_numeric, encodeArray_ok 1 shape _ hL127 hdim]
    · have h := decode_float_array shape data rest hL1 hdim hcnt helems
      have hlen : ((2 * shape.length + 1) ::
          ((shape.map (toBytesBE 4)).flatten ++ (data.map (toBytesLE 8)).flatten)).length =
            1 + 4 * shape.length + 8 * shape.prod := by
        have h1 : (shape.map (toBytesBE 4)).flatten.length = 4 * shape.length := by
          rw [flatten_length_const 4 _ (by
            intro b hb
            obtain ⟨d, _, rfl⟩ := List.mem_map.mp hb
            exact toBytesBE_length 4 d), List.length_map]
        have h2 : (data.map (toBytesLE 8)).flatten.length = 8 * shape.prod := by
          rw [flatten_length_const 8 _ (by
            intro b hb
            obtain ⟨zz, _, rfl⟩ := List.mem_map.mp hb
            exact toBytesLE_length 8 zz), List.length_map, hcnt]
        simp [h1, h2]
        omega
      rw [List.cons_append, List.append_assoc, hlen]
      exact h

/-- Claim C4 (counterexample): the claim quantifies over every int or float
n-d array with at most 127 dimensions, but astype(int32) silently wraps
out-of-range int elements, so the one-element int array [2^31] encodes and
then decodes to [-2^31], not to itself. -/
theorem claim_C4_counterexample :
    encode_numeric (.intArr [1] [2 ^ 31]) = .ok [2, 0, 0, 0, 1, 0, 0, 0, 128] ∧
      decode_numeric_with_size [2, 0, 0, 0, 1, 0, 0, 0, 128] =
        .ok (.intArr [1] [-(2 ^ 31)], 9) ∧
      NumValue.intArr [1] [-(2 ^ 31)] ≠ NumValue.intArr [1] [2 ^ 31] := by
  refine ⟨by decide, by decide, by decide⟩

/-- Claim C4 (amended): for every encodable numeric value whose int
elements (scalar or array) lie in int32 range, whose float patterns fit 64
bits, and whose arrays have 1..127 dimensions each below 2^32 with a
buffer matching the shape, decode_numeric_with_size of encode_numeric
returns the value itself (bit-for-bit; a scalar int decodes to a plain
int, a scalar float to a plain float, never a 0-d array) along with the
encoded length. -/
theorem claim_C4_amended (v : NumValue) (hv : NumGood v) :
    ∃ enc, encode_numeric v = .ok enc ∧
      decode_numeric_with_size enc = .ok (v, enc.length) := by
  obtain ⟨enc, he, hd⟩ := decode_encode_numeric v hv
  refine ⟨enc, he, ?_⟩
  have h := hd []
  simpa using h

/-- Witness for C4: the amended round trip evaluated on the int array
[5, -3] of shape [2]. -/
theorem claim_C4_witness :
    NumGood (.intArr [2] [5, -3]) ∧
      ∃ enc, encode_numeric (.intArr [2] [5, -3]) = .ok enc ∧
        decode_numeric_with_size enc = .ok (.intArr [2] [5, -3], enc.length) :=
  ⟨by unfold NumGood; decide, claim_C4_amended _ (by unfold NumGood; decide)⟩

/-- Claim C8 (counterexample): an input whose prefix declares two payload
bytes while only one is present does not fail; the slice clips and the
declared total size is still returned. -/
theorem claim_C8_counterexample :
    decode_bytestring_with_size [0, 0, 0, 2, 170] = .ok ([170], 6) := by decide

/-- Claim C8 (amended): decode_bytestring_with_size fails only when the
input is shorter than the 4-byte length prefix itself, and then with
TypeError (raised while constructing DecodingError, whose __init__ calls
super.__init__); truncated payloads are returned clipped.  For every input
consisting of the encoded length prefix, the full declared payload and any
trailing bytes, it returns that payload and the consumed size prefix plus
declared length. -/
theorem claim_C8_amended :
    (∀ data : List Nat, data.length < 4 →
        decode_bytestring_with_size data = .error .typeError) ∧
      ∀ payload rest : List Nat, payload.length < 2 ^ 32 →
        decode_bytestring_with_size (toBytesBE 4 payload.length ++ (payload ++ rest)) =
          .ok (payload, payload.length + 4) := by
  constructor
  · intro data h
    rw [decode_bytestring_with_size, if_pos h]
  · intro payload rest h
    have hlen4 : (toBytesBE 4 payload.length).length = 4 := toBytesBE_length 4 _
    have htake : (toBytesBE 4 payload.length ++ (payload ++ rest)).take 4 =
        toBytesBE 4 payload.length := by
      rw [← hlen4]; exact List.take_left _ _
    have hdrop : (toBytesBE 4 payload.length ++ (payload ++ rest)).drop 4 =
        payload ++ rest := by
      rw [← hlen4]; exact List.drop_left _ _
    have hlen : 4 ≤ (toBytesBE 4 payload.length ++ (payload ++ rest)).length := by
      simp [hlen4]
    simp only [decode_bytestring_with_size, htake, hdrop,
      fromBytesBE_toBytesBE 4 payload.length h, if_neg (by omega : ¬ (toBytesBE 4 payload.length ++ (payload ++ rest)).length < 4),
      List.take_left]

/-- Witness for C8: both conjuncts of the amended claim at concrete
inputs. -/
theorem claim_C8_witness :
    decode_bytestring_with_size [0, 0] = .error .typeError ∧
      decode_bytestring_with_size [0, 0, 0, 1, 170, 9] = .ok ([170], 5) := by
  constructor
  · exact claim_C8_amended.1 [0, 0] (by norm_num)
  · have h := claim_C8_amended.2 [170] [9] (by norm_num)
    have e : toBytesBE 4 ([170] : List Nat).length ++ ([170] ++ [9]) =
        [0, 0, 0, 1, 170, 9] := by decide
    rw [e] at h
    simpa using h

/-- Claim C9 (code bug): encode_bytestring is meant to refuse payloads
longer than 2^32 - 1 with EncodeError, but its guard compares against
256 ** 4 = 2^32, so a payload of length exactly 2^32 slips through and
n.to_bytes(4, "big") raises OverflowError instead (and when the guard does
fire, EncodingError's broken __init__ raises TypeError).  Payloads of
length at most 2^32 - 1 are encoded as the 4-byte big-endian length
followed by the payload. -/
theorem claim_C9_bug :
    encode_bytestring (List.replicate (2 ^ 32) 0) = .error .overflowError ∧
      ∀ b : List Nat, b.length ≤ 2 ^ 32 - 1 →
        encode_bytestring b = .ok (toBytesBE 4 b.length ++ b) := by
  constructor
  · rw [encode_bytestring, List.length_replicate, if_neg (by norm_num),
      if_pos (by norm_num)]
  · intro b hb
    rw [encode_bytestring, if_neg (by omega), if_neg (by omega)]

/-- Witness for C9: the successful branch of the theorem at a one-byte
payload. -/
theorem claim_C9_witness : encode_bytestring [7] = .ok [0, 0, 0, 1, 7] := by
  have h := claim_C9_bug.2 [7] (by norm_num)
  have e : toBytesBE 4 ([7] : List Nat).length ++ [7] = [0, 0, 0, 1, 7] := by decide
  rw [e] at h
  exact h

/-! ## Bind helpers for the Except monad -/

theorem bind_ok_ex {α β : Type} (a : α) (f : α → Except PyErr β) :
    (Except.ok a >>= f) = f a := rfl

theorem bind_error_ex {α β : Type} (e : PyErr) (f : α → Except PyErr β) :
    ((Except.error e : Except PyErr α) >>= f) = Except.error e := rfl

theorem eval_bind1_error {α β : Type} (A : Except PyErr α) (f : α → Except PyErr β)
    (h : ∃ e, A = .error e) : ∃ e, (A >>= f) = .error e := by
  obtain ⟨e, he⟩ := h
  exact ⟨e, by rw [he, bind_error_ex]⟩

theorem eval_bind2_error {α β : Type} (A B : Except PyErr α)
    (f : α → α → Except PyErr β)
    (h : (∃ e, A = .error e) ∨ ∃ e, B = .error e) :
    ∃ e, (A >>= fun va => B >>= fun vb => f va vb) = .error e := by
  rcases hA : A with e0 | va
  · exact ⟨e0, rfl⟩
  · rcases h with ⟨e1, h1⟩ | ⟨e1, h1⟩
    · rw [hA] at h1
      exact absurd h1 (by simp)
    · rw [bind_ok_ex, h1]
      exact ⟨e1, rfl⟩

/-! ## Claims about matching, simplification, differentiation,
evaluation and variable construction -/

/-- Claim C1 (code bug): match is meant to fail when a repeated wildcard
captures structurally different subtrees, and the source comments say the
consistency check "should raise a MatchFailed exception", but the check
calls ref.match(other), which CATCHES MatchFailure and returns None, and
the result is discarded; the check is dead code.  Hence
match(Wildcard(0) + Wildcard(0), x + y) returns the binding {0 : x}
instead of "no binding", while the x + x case returns {0 : x} as the
claim states. -/
theorem claim_C1_bug :
    exprMatch (.plus (.wildcard 0) (.wildcard 0))
        (.plus (.var [120] none) (.var [121] none)) =
      .ok (some [(0, .var [120] none)]) ∧
      exprMatch (.plus (.wildcard 0) (.wildcard 0))
          (.plus (.var [120] none) (.var [120] none)) =
        .ok (some [(0, .var [120] none)]) := by
  constructor <;> decide

/-- Claim C2 (code bug): simplify is meant to be total and idempotent on
trees, but Cos.expr_apply and Sin.expr_apply return a fresh lambda
instead of an expression (their siblings Exp, Log, Sign rebuild the
node), so constant reduction of Cos(x) produces a function object, and
reducing Plus(Cos(x), y) computes lambda + y, which raises TypeError in
_sanitise.  simplify(Cos(x) + y) therefore raises instead of returning a
tree. -/
theorem claim_C2_bug :
    simplify (.plus (.cos (.var [120] none)) (.var [121] none)) =
      .error .typeError := by decide

/-- Claim C5 (counterexample): the claim says the unsimplified
differentiator maps Sin(a) to exactly Times(Cos(a), raw-derivative-of-a);
but Sin._diff computes self.a.diff(term) * Cos(self.a), so the factors
are in the opposite order (and the inner derivative is simplified).  At
a = x the code returns Times(Constant(1), Cos(x)), not
Times(Cos(x), Constant(1)). -/
theorem claim_C5_counterexample :
    fast_diff (.sin (.var [120] none)) [120] =
        .ok (.times (.const (.int 1)) (.cos (.var [120] none))) ∧
      Expr.times (.const (.int 1)) (.cos (.var [120] none)) ≠
        Expr.times (.cos (.var [120] none)) (.const (.int 1)) := by
  constructor <;> decide

/-- Claim C5 (amended): for every expression a and variable v on which
the full diff (fast_diff then simplify) succeeds with value d, the
unsimplified differentiator maps Sin(a) to Times(d, Cos(a)) and Cos(a)
to Times(Neg(d), Sin(a)): the inner derivative is the simplified one and
it is the left factor. -/
theorem claim_C5_amended (a : Expr) (v : List Nat) (d : Expr)
    (h : diff a v = .ok d) :
    fast_diff (.sin a) v = .ok (.times d (.cos a)) ∧
      fast_diff (.cos a) v = .ok (.times (.neg d) (.sin a)) := by
  have h2 : ((if differentiable a then diffAux a v
      else Except.error PyErr.typeError) >>= simplify) = Except.ok d := h
  rcases hX : (if differentiable a then diffAux a v
      else Except.error PyErr.typeError) with e0 | x0
  · rw [hX, bind_error_ex] at h2
    exact absurd h2 (by simp)
  · rw [hX, bind_ok_ex] at h2
    constructor
    · show fast_diff (.sin a) v = _
      rw [fast_diff]
      simp only [differentiable, if_true]
      rw [diffAux]
      by_cases hda : differentiable a = true
      · rw [if_pos hda] at hX ⊢
        rw [hX]
        simp only [bind_ok_ex]
        rw [h2]
        simp only [bind_ok_ex]
      · rw [if_neg hda] at hX
        exact absurd hX (by simp)
    · show fast_diff (.cos a) v = _
      rw [fast_diff]
      simp only [differentiable, if_true]
      rw [diffAux]
      by_cases hda : differentiable a = true
      · rw [if_pos hda] at hX ⊢
        rw [hX]
        simp only [bind_ok_ex]
        rw [h2]
        simp only [bind_ok_ex]
      · rw [if_neg hda] at hX
        exact absurd hX (by simp)

/-- Witness for C5: the amended claim at a = x, v = x, where
diff(x, x) = Constant(1). -/
theorem claim_C5_witness :
    diff (Expr.var [120] none) [120] = .ok (.const (.int 1)) ∧
      fast_diff (.sin (.var [120] none)) [120] =
          .ok (.times (.const (.int 1)) (.cos (.var [120] none))) ∧
      fast_diff (.cos (.var [120] none)) [120] =
          .ok (.times (.neg (.const (.int 1))) (.sin (.var [120] none))) := by
  have h := claim_C5_amended (.var [120] none) [120] (.const (.int 1)) (by decide)
  exact ⟨by decide, h.1, h.2⟩

/-- Claim C6 (code bug): differentiation of a tree containing a
non-differentiable node (Wildcard or Sign) is meant to fail with
NonDifferentiableError, but (i) the differentiable check guards only the
root: a nested Sign reaches the base class Expression._diff, which
raises NotImplementedError, and (ii) even at the root,
NonDifferentiableExpressionError.__init__ calls super.__init__ without
parentheses, so constructing the exception raises TypeError. -/
theorem claim_C6_bug :
    fast_diff (.plus (.sign (.var [120] none)) (.var [120] none)) [120] =
        .error .notImplementedError ∧
      fast_diff (.sign (.var [120] none)) [120] = .error .typeError := by
  constructor <;> decide

/-- Claim C7 (counterexample): evaluating Variable(id) under a binding
without id is claimed to raise EvaluationError, but Variable.__call__ is
a bare mapping lookup, so the error is the dict's KeyError. -/
theorem claim_C7_counterexample :
    evalExpr (.var [120] none) (fun _ => none) = .error .keyError ∧
      (Except.error PyErr.keyError : Except PyErr PyVal) ≠
        .error .evaluationError := by
  exact ⟨rfl, by simp⟩

theorem containsWildcard_eq_true (e : Expr) :
    containsWildcard e = true ↔ wildcardNumbers e ≠ [] := by
  simp [containsWildcard, List.isEmpty_iff]

/-- Claim C7 (amended): at a leaf, a Wildcard always fails with
EvaluationError and a Variable with an unbound identity fails with
KeyError (the mapping's own error, not EvaluationError); consequently a
tree containing a Wildcard never evaluates successfully (the failure is
the EvaluationError of the wildcard unless an earlier error, such as an
unbound variable, wins). -/
theorem claim_C7_amended :
    (∀ (n : Nat) (env : List Nat → Option PyVal),
        evalExpr (.wildcard n) env = .error .evaluationError) ∧
      (∀ (i : List Nat) (al : Option (List Nat)) (env : List Nat → Option PyVal),
        env i = none → evalExpr (.var i al) env = .error .keyError) ∧
      ∀ (t : Expr) (env : List Nat → Option PyVal), containsWildcard t = true →
        ∃ err, evalExpr t env = .error err := by
  refine ⟨fun n env => rfl, fun i al env h => by rw [evalExpr, h], fun t env hw => ?_⟩
  induction t with
  | const v => simp [containsWildcard, wildcardNumbers] at hw
  | var i al => simp [containsWildcard, wildcardNumbers] at hw
  | wildcard n => exact ⟨.evaluationError, rfl⟩
  | plus a b iha ihb =>
    have h2 : wildcardNumbers a ≠ [] ∨ wildcardNumbers b ≠ [] := by
      have h3 := (containsWildcard_eq_true _).mp hw
      simp only [wildcardNumbers] at h3
      by_contra hc
      push_neg at hc
      exact h3 (by rw [hc.1, hc.2]; rfl)
    simp only [evalExpr]
    apply eval_bind2_error
    rcases h2 with h2 | h2
    · exact Or.inl (iha ((containsWildcard_eq_true _).mpr h2))
    · exact Or.inr (ihb ((containsWildcard_eq_true _).mpr h2))
  | minus a b iha ihb =>
    have h2 : wildcardNumbers a ≠ [] ∨ wildcardNumbers b ≠ [] := by
      have h3 := (containsWildcard_eq_true _).mp hw
      simp only [wildcardNumbers] at h3
      by_contra hc
      push_neg at hc
      exact h3 (by rw [hc.1, hc.2]; rfl)
    simp only [evalExpr]
    apply eval_bind2_error
    rcases h2 with h2 | h2
    · exact Or.inl (iha ((containsWildcard_eq_true _).mpr h2))
    · exact Or.inr (ihb ((containsWildcard_eq_true _).mpr h2))
  | neg a iha =>
    simp only [evalExpr]
    exact eval_bind1_error _ _ (iha hw)
  | times a b iha ihb =>
    have h2 : wildcardNumbers a ≠ [] ∨ wildcardNumbers b ≠ [] := by
      have h3 := (containsWildcard_eq_true _).mp hw
      simp only [wildcardNumbers] at h3
      by_contra hc
      push_neg at hc
      exact h3 (by rw [hc.1, hc.2]; rfl)
    simp only [evalExpr]
    apply eval_bind2_error
    rcases h2 with h2 | h2
    · exact Or.inl (iha ((containsWildcard_eq_true _).mpr h2))
    · exact Or.inr (ihb ((containsWildcard_eq_true _).mpr h2))
  | divide a b iha ihb =>
    have h2 : wildcardNumbers a ≠ [] ∨ wildcardNumbers b ≠ [] := by
      have h3 := (containsWildcard_eq_true _).mp hw
      simp only [wildcardNumbers] at h3
      by_contra hc
      push_neg at hc
      exact h3 (by rw [hc.1, hc.2]; rfl)
    simp only [evalExpr]
    apply eval_bind2_error
    rcases h2 with h2 | h2
    · exact Or.inl (iha ((containsWildcard_eq_true _).mpr h2))
    · exact Or.inr (ihb ((containsWildcard_eq_true _).mpr h2))
  | modulo a b iha ihb =>
    have h2 : wildcardNumbers a ≠ [] ∨ wildcardNumbers b ≠ [] := by
      have h3 := (containsWildcard_eq_true _).mp hw
      simp only [wildcardNumbers] at h3
      by_contra hc
      push_neg at hc
      exact h3 (by rw [hc.1, hc.2]; rfl)
    simp only [evalExpr]
    apply eval_bind2_error
    rcases h2 with h2 | h2
    · exact Or.inl (iha ((containsWildcard_eq_true _).mpr h2))
    · exact Or.inr (ihb ((containsWildcard_eq_true _).mpr h2))
  | power a b iha ihb =>
    have h2 : wildcardNumbers a ≠ [] ∨ wildcardNumbers b ≠ [] := by
      have h3 := (containsWildcard_eq_true _).mp hw
      simp only [wildcardNumbers] at h3
      by_contra hc
      push_neg at hc
      exact h3 (by rw [hc.1, hc.2]; rfl)
    simp only [evalExpr]
    apply eval_bind2_error
    rcases h2 with h2 | h2
    · exact Or.inl (iha ((containsWildcard_eq_true _).mpr h2))
    · exact Or.inr (ihb ((containsWildcard_eq_true _).mpr h2))
  | exp a iha =>
    simp only [evalExpr]
    exact eval_bind1_error _ _ (iha hw)
  | log a iha =>
    simp only [evalExpr]
    exact eval_bind1_error _ _ (iha hw)
  | cos a iha =>
    simp only [evalExpr]
    exact eval_bind1_error _ _ (iha hw)
  | sin a iha =>
    simp only [evalExpr]
    exact eval_bind1_error _ _ (iha hw)
  | abs a iha =>
    simp only [evalExpr]
    exact eval_bind1_error _ _ (iha hw)
  | sign a iha =>
    simp only [evalExpr]
    exact eval_bind1_error _ _ (iha hw)

/-- Witness for C7: all three parts of the amended claim at concrete
inputs. -/
theorem claim_C7_witness :
    evalExpr (.wildcard 0) (fun _ => none) = .error .evaluationError ∧
      evalExpr (.var [120] none) (fun _ => none) = .error .keyError ∧
      ∃ err, evalExpr (.plus (.const (.int 1)) (.wildcard 0)) (fun _ => none) =
        .error err :=
  ⟨claim_C7_amended.1 0 _, claim_C7_amended.2.1 [120] none _ rfl,
    claim_C7_amended.2.2 _ _ rfl⟩

/-- Claim C10 (confirmed): Variable(identity, print_alias="") stores
exactly the same state as Variable(identity, print_alias=None)
(print_alias becomes None, aliased becomes str(identity)), so the two are
indistinguishable through equality, printing, the variable table and
serialisation, all of which are functions of the stored fields; the
tree-level constructor normalises identically. -/
theorem claim_C10_empty_alias (identity : List Nat) :
    mkVariableData identity (some []) = mkVariableData identity none ∧
      mkVariable identity (some []) = mkVariable identity none := by
  constructor <;> rfl

/-! ## Variable table round trip -/

theorem encode_bytestring_ok (b : List Nat) (h : b.length < 2 ^ 32) :
    encode_bytestring b = .ok (toBytesBE 4 b.length ++ b) := by
  rw [encode_bytestring, if_neg (by omega), if_neg (by omega)]

theorem decode_bytestring_prefix (b rest : List Nat) (h : b.length < 2 ^ 32) :
    decode_bytestring_with_size ((toBytesBE 4 b.length ++ b) ++ rest) =
      .ok (b, b.length + 4) := by
  have hlen4 : (toBytesBE 4 b.length).length = 4 := toBytesBE_length 4 _
  have htake : ((toBytesBE 4 b.length ++ b) ++ rest).take 4 = toBytesBE 4 b.length := by
    rw [List.append_assoc, ← hlen4]
    exact List.take_left _ _
  have hdrop : ((toBytesBE 4 b.length ++ b) ++ rest).drop 4 = b ++ rest := by
    rw [List.append_assoc, ← hlen4]
    exact List.drop_left _ _
  have hlen : ¬ ((toBytesBE 4 b.length ++ b) ++ rest).length < 4 := by
    simp only [List.length_append, hlen4]
    omega
  simp only [decode_bytestring_with_size, if_neg hlen, htake, hdrop,
    fromBytesBE_toBytesBE 4 b.length h, List.take_left]

theorem tableEntryBytes_length (i : List Nat) (al : Option (List Nat)) :
    (tableEntryBytes i al).length = (i.length + 4) + ((aliasBytes al).length + 4) := by
  simp [tableEntryBytes, toBytesBE_length]
  omega

theorem encodeTableEntry_ok (i : List Nat) (al : Option (List Nat))
    (h : EntryGood (i, al)) :
    encodeTableEntry i al = .ok (tableEntryBytes i al) := by
  obtain ⟨h1, h2, _⟩ := h
  rw [encodeTableEntry, encode_bytestring_ok (aliasBytes al) h2,
    encode_bytestring_ok i h1]
  rfl

theorem decodeTableEntry_rt (i : List Nat) (al : Option (List Nat)) (rest : List Nat)
    (h : EntryGood (i, al)) :
    decodeTableEntry (tableEntryBytes i al ++ rest) =
      .ok ((i, al), (tableEntryBytes i al).length) := by
  obtain ⟨h1, h2, h3⟩ := h
  have e1 : tableEntryBytes i al ++ rest =
      (toBytesBE 4 i.length ++ i) ++
        ((toBytesBE 4 (aliasBytes al).length ++ aliasBytes al) ++ rest) := by
    simp [tableEntryBytes]
  have hl : (toBytesBE 4 i.length ++ i).length = i.length + 4 := by
    simp [toBytesBE_length]
    omega
  have e2 : ((toBytesBE 4 i.length ++ i) ++
        ((toBytesBE 4 (aliasBytes al).length ++ aliasBytes al) ++ rest)).drop (i.length + 4) =
      (toBytesBE 4 (aliasBytes al).length ++ aliasBytes al) ++ rest := by
    rw [← hl]
    exact List.drop_left _ _
  rw [decodeTableEntry, e1, decode_bytestring_prefix i _ h1]
  simp only [e2, decode_bytestring_prefix (aliasBytes al) rest h2]
  cases al with
  | none =>
    simp [aliasBytes, tableEntryBytes_length]
  | some s =>
    have hs : s ≠ [] := fun hc => h3 (by rw [hc])
    have hlen : ¬ ((aliasBytes (some s)).length + 4 = 4) := by
      simp only [aliasBytes, Option.getD_some]
      intro hc
      exact hs (List.eq_nil_of_length_eq_zero (by omega))
    simp [aliasBytes, hlen, tableEntryBytes_length]
    exact hs

theorem decodeEntries_rt (l : VarTable) (hg : ∀ p ∈ l, EntryGood p) :
    ∀ pre rest : List Nat,
      decodeTableEntries l.length (pre ++ (entriesFlat l ++ rest)) pre.length =
        .ok (l, pre.length + (entriesFlat l).length) := by
  induction l with
  | nil =>
    intro pre rest
    simp [decodeTableEntries, entriesFlat]
  | cons p tl ih =>
    intro pre rest
    have hgp : EntryGood p := hg p (List.mem_cons_self p tl)
    have hgtl : ∀ q ∈ tl, EntryGood q := fun q hq => hg q (List.mem_cons_of_mem p hq)
    have hflat : entriesFlat (p :: tl) = tableEntryBytes p.1 p.2 ++ entriesFlat tl := by
      simp [entriesFlat]
    have hdrop : (pre ++ (entriesFlat (p :: tl) ++ rest)).drop pre.length =
        tableEntryBytes p.1 p.2 ++ (entriesFlat tl ++ rest) := by
      rw [List.drop_left, hflat, List.append_assoc]
    have hrt : decodeTableEntry ((pre ++ (entriesFlat (p :: tl) ++ rest)).drop pre.length) =
        .ok ((p.1, p.2), (tableEntryBytes p.1 p.2).length) := by
      rw [hdrop]
      exact decodeTableEntry_rt p.1 p.2 _ hgp
    have harr : pre ++ (entriesFlat (p :: tl) ++ rest) =
        (pre ++ tableEntryBytes p.1 p.2) ++ (entriesFlat tl ++ rest) := by
      rw [hflat]
      simp [List.append_assoc]
    have hrec := ih hgtl (pre ++ tableEntryBytes p.1 p.2) rest
    rw [List.length_append, ← harr] at hrec
    rw [List.length_cons, decodeTableEntries, hrt]
    simp only [bind_ok_ex]
    rw [hrec]
    simp only [bind_ok_ex]
    simp [hflat]
    omega

theorem encode_table_fold (l : VarTable) (hg : ∀ p ∈ l, EntryGood p) :
    ∀ acc : List Nat,
      (l.foldlM (fun acc kv =>
        match encodeTableEntry kv.1 kv.2 with
        | .error e => .error e
        | .ok eb => .ok (acc ++ eb)) acc : Except PyErr (List Nat)) =
        .ok (acc ++ entriesFlat l) := by
  induction l with
  | nil =>
    intro acc
    simp [entriesFlat, List.foldlM]
    rfl
  | cons p tl ih =>
    intro acc
    rw [List.foldlM_cons, encodeTableEntry_ok p.1 p.2 (hg p (List.mem_cons_self p tl))]
    have := ih (fun q hq => hg q (List.mem_cons_of_mem p hq)) (acc ++ tableEntryBytes p.1 p.2)
    simp only [bind_ok_ex] at this ⊢
    rw [this]
    simp [entriesFlat]

theorem encode_variable_table_ok (l : VarTable) (hg : ∀ p ∈ l, EntryGood p)
    (hlen : l.length < 2 ^ 16) :
    encode_variable_table l = .ok (tableBytes l) := by
  rw [encode_variable_table, if_neg (by omega), if_neg (by omega),
    encode_table_fold l hg (toBytesBE 2 l.length)]
  rfl

theorem decode_variable_table_rt (l : VarTable) (hg : ∀ p ∈ l, EntryGood p)
    (hlen : l.length < 2 ^ 16) (rest : List Nat) :
    decode_variable_table_with_size (tableBytes l ++ rest) =
      .ok (l, (tableBytes l).length) := by
  have h2 : (toBytesBE 2 l.length).length = 2 := toBytesBE_length 2 _
  have htake : (tableBytes l ++ rest).take 2 = toBytesBE 2 l.length := by
    rw [tableBytes, List.append_assoc, ← h2]
    exact List.take_left _ _
  have harr : tableBytes l ++ rest = toBytesBE 2 l.length ++ (entriesFlat l ++ rest) := by
    rw [tableBytes, List.append_assoc]
  have hcnt : fromBytesBE ((tableBytes l ++ rest).take 2) = l.length := by
    rw [htake]
    exact fromBytesBE_toBytesBE 2 l.length (by norm_num; omega)
  rw [decode_variable_table_with_size, hcnt]
  have := decodeEntries_rt l hg (toBytesBE 2 l.length) rest
  rw [h2] at this
  rw [harr, this, tableBytes]
  simp [h2]

/-! ## Properties of the variable-gathering pass -/

theorem dictSet_mem (d : VarTable) (k : List Nat) (v : Option (List Nat))
    (p : List Nat × Option (List Nat)) (hp : p ∈ dictSet d k v) :
    p ∈ d ∨ p = (k, v) := by
  rw [dictSet] at hp
  split at hp
  · obtain ⟨q, hq, hq2⟩ := List.mem_map.mp hp
    by_cases hqk : (q.1 == k) = true
    · rw [if_pos hqk] at hq2
      exact Or.inr hq2.symm
    · rw [if_neg hqk] at hq2
      exact Or.inl (hq2 ▸ hq)
  · rcases List.mem_append.mp hp with h | h
    · exact Or.inl h
    · simp only [List.mem_singleton] at h
      exact Or.inr h

theorem dictSet_self (d : VarTable) (k : List Nat) (v : Option (List Nat)) :
    (k, v) ∈ dictSet d k v := by
  rw [dictSet]
  split
  · next hc =>
    obtain ⟨q, hq, hq2⟩ := List.any_eq_true.mp hc
    exact List.mem_map.mpr ⟨q, hq, by rw [if_pos hq2]⟩
  · exact List.mem_append.mpr (Or.inr (by simp))

theorem dictSet_keep (d : VarTable) (k : List Nat) (v : Option (List Nat))
    (k2 : List Nat) (h : ∃ al, (k2, al) ∈ d) :
    ∃ al, (k2, al) ∈ dictSet d k v := by
  obtain ⟨al, hal⟩ := h
  rw [dictSet]
  split
  · by_cases hk : (((k2, al) : List Nat × Option (List Nat)).1 == k) = true
    · have hk2 : k2 = k := by simpa using hk
      subst hk2
      exact ⟨v, List.mem_map.mpr ⟨(k2, al), hal, by rw [if_pos hk]⟩⟩
    · exact ⟨al, List.mem_map.mpr ⟨(k2, al), hal, by rw [if_neg hk]⟩⟩
  · exact ⟨al, List.mem_append.mpr (Or.inl hal)⟩

theorem dictSet_keys_nodup (d : VarTable) (k : List Nat) (v : Option (List Nat))
    (h : (d.map Prod.fst).Nodup) : ((dictSet d k v).map Prod.fst).Nodup := by
  rw [dictSet]
  split
  · have e : ((d.map fun kv => if kv.1 == k then (k, v) else kv).map Prod.fst) =
        d.map Prod.fst := by
      rw [List.map_map]
      apply List.map_congr_left
      intro q _
      simp only [Function.comp_apply]
      by_cases hq : (q.1 == k) = true
      · rw [if_pos hq]
        have : q.1 = k := by simpa using hq
        simp [this]
      · rw [if_neg hq]
    rw [e]
    exact h
  · next hc =>
    have hk : k ∉ d.map Prod.fst := by
      intro hmem
      obtain ⟨q, hq, hq2⟩ := List.mem_map.mp hmem
      exact hc (List.any_eq_true.mpr ⟨q, hq, by simp [hq2]⟩)
    rw [List.map_append]
    simp only [List.map_cons, List.map_nil]
    rw [List.nodup_append]
    exact ⟨h, List.nodup_singleton k, by simpa using hk⟩

theorem dictUpd_cons (d : VarTable) (q : List Nat × Option (List Nat))
    (tl : VarTable) : dictUpd d (q :: tl) = dictUpd (dictSet d q.1 q.2) tl := rfl

theorem dictUpd_mem (l : VarTable) (p : List Nat × Option (List Nat)) :
    ∀ d, p ∈ dictUpd d l → p ∈ d ∨ p ∈ l := by
  induction l with
  | nil => exact fun d hp => Or.inl hp
  | cons q tl ih =>
    intro d hp
    rw [dictUpd_cons] at hp
    rcases ih (dictSet d q.1 q.2) hp with h | h
    · rcases dictSet_mem d q.1 q.2 p h with h2 | h2
      · exact Or.inl h2
      · refine Or.inr ?_
        rw [h2]
        exact List.mem_cons_self q tl
    · exact Or.inr (List.mem_cons_of_mem q h)

theorem dictUpd_keep (l : VarTable) (k2 : List Nat) :
    ∀ d, (∃ al, (k2, al) ∈ d) → ∃ al, (k2, al) ∈ dictUpd d l := by
  induction l with
  | nil => exact fun d h => h
  | cons q tl ih =>
    intro d h
    rw [dictUpd_cons]
    exact ih _ (dictSet_keep d q.1 q.2 k2 h)

theorem dictUpd_new (l : VarTable) (k2 : List Nat) :
    ∀ d, (∃ al, (k2, al) ∈ l) → ∃ al, (k2, al) ∈ dictUpd d l := by
  induction l with
  | nil =>
    intro d h
    obtain ⟨al, hal⟩ := h
    simp at hal
  | cons q tl ih =>
    intro d h
    obtain ⟨al, hal⟩ := h
    rw [dictUpd_cons]
    rcases List.mem_cons.mp hal with h2 | h2
    · have e1 : (k2, q.2) = (q.1, q.2) := by
        have : k2 = q.1 := by rw [← h2]
        rw [this]
      refine dictUpd_keep tl k2 _ ⟨q.2, ?_⟩
      rw [e1]
      exact dictSet_self d q.1 q.2
    · exact ih _ ⟨al, h2⟩

theorem dictUpd_keys_nodup (l : VarTable) :
    ∀ d, (d.map Prod.fst).Nodup → ((dictUpd d l).map Prod.fst).Nodup := by
  induction l with
  | nil => exact fun d h => h
  | cons q tl ih =>
    intro d h
    rw [dictUpd_cons]
    exact ih _ (dictSet_keys_nodup d q.1 q.2 h)

theorem sortTable_perm (l : VarTable) : (sortTable l).Perm l :=
  List.perm_insertionSort _ l

theorem sortTable_good (tbl occs : VarTable) (h : TableGoodFor tbl occs) :
    TableGoodFor (sortTable tbl) occs := by
  obtain ⟨h1, h2, h3⟩ := h
  refine ⟨?_, ?_, ?_⟩
  · exact fun p hp => h1 p ((sortTable_perm tbl).mem_iff.mp hp)
  · intro p hp
    obtain ⟨al, hal⟩ := h2 p hp
    exact ⟨al, (sortTable_perm tbl).mem_iff.mpr hal⟩
  · exact (((sortTable_perm tbl).map Prod.fst).nodup_iff).mpr h3

theorem table_good_nil : TableGoodFor [] [] :=
  ⟨by simp, by simp, by simp⟩

theorem varStep_good (d : VarTable) (t : Expr) (prevOccs : VarTable)
    (Hd : TableGoodFor d prevOccs)
    (Ht : TableGoodFor (exprVariables t) (varOccs t)) :
    TableGoodFor (varStep d t (exprVariables t)) (prevOccs ++ varOccs t) := by
  obtain ⟨hd1, hd2, hd3⟩ := Hd
  obtain ⟨ht1, ht2, ht3⟩ := Ht
  cases t
  case var i al =>
    refine ⟨?_, ?_, ?_⟩
    · intro p hp
      rcases dictSet_mem d i al p hp with h | h
      · exact List.mem_append.mpr (Or.inl (hd1 p h))
      · exact List.mem_append.mpr (Or.inr (by simp [varOccs, h]))
    · intro p hp
      rcases List.mem_append.mp hp with h | h
      · exact dictSet_keep d i al p.1 (hd2 p h)
      · have hp2 : p = (i, al) := by simpa [varOccs] using h
        exact ⟨al, by rw [hp2]; exact dictSet_self d i al⟩
    · exact dictSet_keys_nodup d i al hd3
  all_goals
    refine ⟨?_, ?_, ?_⟩
  all_goals
    first
    | (intro p hp
       rcases dictUpd_mem _ p d hp with h | h
       · exact List.mem_append.mpr (Or.inl (hd1 p h))
       · exact List.mem_append.mpr (Or.inr (ht1 p h)))
    | (intro p hp
       rcases List.mem_append.mp hp with h | h
       · exact dictUpd_keep _ p.1 d (hd2 p h)
       · exact dictUpd_new _ p.1 d (ht2 p h))
    | exact dictUpd_keys_nodup _ d hd3

/-- The variable table Expression.variables gathers relates to the
variable occurrences of the tree. -/
theorem exprVariables_good (t : Expr) :
    TableGoodFor (exprVariables t) (varOccs t) := by
  induction t with
  | const v => exact ⟨by simp [exprVariables], by simp [varOccs], by simp [exprVariables]⟩
  | var i al =>
    refine ⟨?_, ?_, ?_⟩
    · intro p hp
      simpa [exprVariables, varOccs] using hp
    · intro p hp
      have : p = (i, al) := by simpa [varOccs] using hp
      exact ⟨al, by simp [exprVariables, this]⟩
    · simp [exprVariables]
  | wildcard n => exact ⟨by simp [exprVariables], by simp [varOccs], by simp [exprVariables]⟩
  | plus a b iha ihb =>
    exact sortTable_good _ _ (varStep_good _ b _ (varStep_good [] a [] table_good_nil iha) ihb)
  | minus a b iha ihb =>
    exact sortTable_good _ _ (varStep_good _ b _ (varStep_good [] a [] table_good_nil iha) ihb)
  | neg a iha =>
    exact sortTable_good _ _ (varStep_good [] a [] table_good_nil iha)
  | times a b iha ihb =>
    exact sortTable_good _ _ (varStep_good _ b _ (varStep_good [] a [] table_good_nil iha) ihb)
  | divide a b iha ihb =>
    exact sortTable_good _ _ (varStep_good _ b _ (varStep_good [] a [] table_good_nil iha) ihb)
  | modulo a b iha ihb =>
    exact sortTable_good _ _ (varStep_good _ b _ (varStep_good [] a [] table_good_nil iha) ihb)
  | power a b iha ihb =>
    exact sortTable_good _ _ (varStep_good _ b _ (varStep_good [] a [] table_good_nil iha) ihb)
  | exp a iha =>
    exact sortTable_good _ _ (varStep_good [] a [] table_good_nil iha)
  | log a iha =>
    exact sortTable_good _ _ (varStep_good [] a [] table_good_nil iha)
  | cos a iha =>
    exact sortTable_good _ _ (varStep_good [] a [] table_good_nil iha)
  | sin a iha =>
    exact sortTable_good _ _ (varStep_good [] a [] table_good_nil iha)
  | abs a iha =>
    exact sortTable_good _ _ (varStep_good [] a [] table_good_nil iha)
  | sign a iha =>
    exact sortTable_good _ _ (varStep_good [] a [] table_good_nil iha)

/-- Positional lookup of a pair in a table with distinct keys. -/
theorem table_lookup (l : VarTable) (hnd : (l.map Prod.fst).Nodup) :
    ∀ p ∈ l, ∃ idx, lookupIdx (l.map Prod.fst) p.1 = some idx ∧
      idx < l.length ∧ l[idx]? = some p := by
  induction l with
  | nil => intro p hp; simp at hp
  | cons q tl ih =>
    intro p hp
    rw [List.map_cons] at hnd
    have hnd2 := (List.nodup_cons.mp hnd).2
    have hq1 := (List.nodup_cons.mp hnd).1
    rcases List.mem_cons.mp hp with h | h
    · refine ⟨0, ?_, by simp, by simp [h]⟩
      rw [List.map_cons, lookupIdx, if_pos (by simp [h])]
    · have hkey : p.1 ∈ tl.map Prod.fst := List.mem_map.mpr ⟨p, h, rfl⟩
      have hne : ¬ (q.1 == p.1) = true := by
        intro hc
        have : q.1 = p.1 := by simpa using hc
        exact hq1 (this ▸ hkey)
      obtain ⟨idx, h1, h2, h3⟩ := ih hnd2 p h
      refine ⟨idx + 1, ?_, by simpa using h2, by simpa using h3⟩
      rw [List.map_cons, lookupIdx, if_neg hne, h1]
      rfl


/-! ## Body round trip -/

theorem containsWildcard_eq_false (e : Expr) :
    containsWildcard e = false ↔ wildcardNumbers e = [] := by
  simp [containsWildcard, List.isEmpty_iff]

theorem pyValEq_refl (v : PyVal) (h : ConstGood v) : pyValEq v v = true := by
  cases v with
  | int z => simp [pyValEq]
  | float b =>
    have hnan : floatIsNaN b = false := h.2
    rw [pyValEq, pyFloatEqFloat, hnan]
    simp only [Bool.or_self, Bool.false_eq_true, if_false]
    cases hinf : floatIsInf b <;> simp [hinf]
  | lam tg => exact h.elim

theorem full_identity_refl (t : Expr) (h : ∀ v ∈ constOccs t, ConstGood v) :
    full_identity t t = true := by
  induction t with
  | const v =>
    show pyValEq v v = true
    exact pyValEq_refl v (h v (by simp [constOccs]))
  | var i al =>
    show (i == i) = true
    simp
  | wildcard n =>
    show (n == n) = true
    simp
  | plus a b iha ihb =>
    show (full_identity a a && full_identity b b) = true
    rw [Bool.and_eq_true]
    exact ⟨iha fun v hv => h v (List.mem_append.mpr (Or.inl hv)),
      ihb fun v hv => h v (List.mem_append.mpr (Or.inr hv))⟩
  | minus a b iha ihb =>
    show (full_identity a a && full_identity b b) = true
    rw [Bool.and_eq_true]
    exact ⟨iha fun v hv => h v (List.mem_append.mpr (Or.inl hv)),
      ihb fun v hv => h v (List.mem_append.mpr (Or.inr hv))⟩
  | neg a iha =>
    show full_identity a a = true
    exact iha fun v hv => h v hv
  | times a b iha ihb =>
    show (full_identity a a && full_identity b b) = true
    rw [Bool.and_eq_true]
    exact ⟨iha fun v hv => h v (List.mem_append.mpr (Or.inl hv)),
      ihb fun v hv => h v (List.mem_append.mpr (Or.inr hv))⟩
  | divide a b iha ihb =>
    show (full_identity a a && full_identity b b) = true
    rw [Bool.and_eq_true]
    exact ⟨iha fun v hv => h v (List.mem_append.mpr (Or.inl hv)),
      ihb fun v hv => h v (List.mem_append.mpr (Or.inr hv))⟩
  | modulo a b iha ihb =>
    show (full_identity a a && full_identity b b) = true
    rw [Bool.and_eq_true]
    exact ⟨iha fun v hv => h v (List.mem_append.mpr (Or.inl hv)),
      ihb fun v hv => h v (List.mem_append.mpr (Or.inr hv))⟩
  | power a b iha ihb =>
    show (full_identity a a && full_identity b b) = true
    rw [Bool.and_eq_true]
    exact ⟨iha fun v hv => h v (List.mem_append.mpr (Or.inl hv)),
      ihb fun v hv => h v (List.mem_append.mpr (Or.inr hv))⟩
  | exp a iha =>
    show full_identity a a = true
    exact iha fun v hv => h v hv
  | log a iha =>
    show full_identity a a = true
    exact iha fun v hv => h v hv
  | cos a iha =>
    show full_identity a a = true
    exact iha fun v hv => h v hv
  | sin a iha =>
    show full_identity a a = true
    exact iha fun v hv => h v hv
  | abs a iha =>
    show full_identity a a = true
    exact iha fun v hv => h v hv
  | sign a iha =>
    show full_identity a a = true
    exact iha fun v hv => h v hv

theorem mkVariable_eq (i : List Nat) (al : Option (List Nat)) (h : al ≠ some []) :
    mkVariable i al = .var i al := by
  cases al with
  | none => rfl
  | some s =>
    have hs : ¬ (s = []) := fun hc => h (by rw [hc])
    rw [mkVariable, if_neg hs]

theorem dbf_const (f : Nat) (tail : List Nat) (vars : List Expr) :
    deserialiseBodyF (f + 1) (1 :: tail) vars =
      (decodeConstVal tail >>= fun r => .ok (.const r.1, 1 + r.2)) := rfl

theorem dbf_var (f : Nat) (tail : List Nat) (vars : List Expr) :
    deserialiseBodyF (f + 1) (2 :: tail) vars =
      (match vars[fromBytesBE (tail.take 2)]? with
       | none => Except.error PyErr.indexError
       | some ve => .ok (ve, 1 + 2)) := rfl

theorem dbf_plus (f : Nat) (tail : List Nat) (vars : List Expr) :
    deserialiseBodyF (f + 1) (3 :: tail) vars =
      (deserialiseBodyF f tail vars >>= fun ra =>
        deserialiseBodyF f (tail.drop ra.2) vars >>= fun rb =>
          .ok (.plus ra.1 rb.1, 1 + (ra.2 + rb.2))) := rfl

theorem dbf_minus (f : Nat) (tail : List Nat) (vars : List Expr) :
    deserialiseBodyF (f + 1) (4 :: tail) vars =
      (deserialiseBodyF f tail vars >>= fun ra =>
        deserialiseBodyF f (tail.drop ra.2) vars >>= fun rb =>
          .ok (.minus ra.1 rb.1, 1 + (ra.2 + rb.2))) := rfl

theorem dbf_neg (f : Nat) (tail : List Nat) (vars : List Expr) :
    deserialiseBodyF (f + 1) (5 :: tail) vars =
      (deserialiseBodyF f tail vars >>= fun ra =>
        .ok (.neg ra.1, 1 + ra.2)) := rfl

theorem dbf_times (f : Nat) (tail : List Nat) (vars : List Expr) :
    deserialiseBodyF (f + 1) (6 :: tail) vars =
      (deserialiseBodyF f tail vars >>= fun ra =>
        deserialiseBodyF f (tail.drop ra.2) vars >>= fun rb =>
          .ok (.times ra.1 rb.1, 1 + (ra.2 + rb.2))) := rfl

theorem dbf_divide (f : Nat) (tail : List Nat) (vars : List Expr) :
    deserialiseBodyF (f + 1) (7 :: tail) vars =
      (deserialiseBodyF f tail vars >>= fun ra =>
        deserialiseBodyF f (tail.drop ra.2) vars >>= fun rb =>
          .ok (.divide ra.1 rb.1, 1 + (ra.2 + rb.2))) := rfl

theorem dbf_modulo (f : Nat) (tail : List Nat) (vars : List Expr) :
    deserialiseBodyF (f + 1) (8 :: tail) vars =
      (deserialiseBodyF f tail vars >>= fun ra =>
        deserialiseBodyF f (tail.drop ra.2) vars >>= fun rb =>
          .ok (.modulo ra.1 rb.1, 1 + (ra.2 + rb.2))) := rfl

theorem dbf_power (f : Nat) (tail : List Nat) (vars : List Expr) :
    deserialiseBodyF (f + 1) (9 :: tail) vars =
      (deserialiseBodyF f tail vars >>= fun ra =>
        deserialiseBodyF f (tail.drop ra.2) vars >>= fun rb =>
          .ok (.power ra.1 rb.1, 1 + (ra.2 + rb.2))) := rfl

theorem dbf_exp (f : Nat) (tail : List Nat) (vars : List Expr) :
    deserialiseBodyF (f + 1) (10 :: tail) vars =
      (deserialiseBodyF f tail vars >>= fun ra =>
        .ok (.exp ra.1, 1 + ra.2)) := rfl

theorem dbf_log (f : Nat) (tail : List Nat) (vars : List Expr) :
    deserialiseBodyF (f + 1) (11 :: tail) vars =
      (deserialiseBodyF f tail vars >>= fun ra =>
        .ok (.log ra.1, 1 + ra.2)) := rfl

theorem dbf_cos (f : Nat) (tail : List Nat) (vars : List Expr) :
    deserialiseBodyF (f + 1) (12 :: tail) vars =
      (deserialiseBodyF f tail vars >>= fun ra =>
        .ok (.cos ra.1, 1 + ra.2)) := rfl

theorem dbf_sin (f : Nat) (tail : List Nat) (vars : List Expr) :
    deserialiseBodyF (f + 1) (13 :: tail) vars =
      (deserialiseBodyF f tail vars >>= fun ra =>
        .ok (.sin ra.1, 1 + ra.2)) := rfl

theorem dbf_abs (f : Nat) (tail : List Nat) (vars : List Expr) :
    deserialiseBodyF (f + 1) (14 :: tail) vars =
      (deserialiseBodyF f tail vars >>= fun ra =>
        .ok (.abs ra.1, 1 + ra.2)) := rfl

theorem dbf_sign (f : Nat) (tail : List Nat) (vars : List Expr) :
    deserialiseBodyF (f + 1) (15 :: tail) vars =
      (deserialiseBodyF f tail vars >>= fun ra =>
        .ok (.sign ra.1, 1 + ra.2)) := rfl

/-- Round trip of the body encoding: under a wildcard-free tree with good
scalar constants and a lookup/variable list agreeing with every variable
occurrence, the emitted body decodes back to the very same tree (for any
byte suffix and any sufficient fuel). -/
theorem body_rt (t : Expr) (ids : List (List Nat)) (vars : List Expr)
    (hwf : containsWildcard t = false)
    (hconst : ∀ v ∈ constOccs t, ConstGood v)
    (hvar : ∀ p ∈ varOccs t, ∃ idx, lookupIdx ids p.1 = some idx ∧
      idx < 2 ^ 16 ∧ vars[idx]? = some (.var p.1 p.2)) :
    ∃ bs, serialiseBody t ids = .ok bs ∧
      ∀ (rest : List Nat) (fuel : Nat), (bs ++ rest).length ≤ fuel →
        deserialiseBodyF fuel (bs ++ rest) vars = .ok (t, bs.length) := by
  induction t with
  | const v =>
    have hg : ConstGood v := hconst v (by simp [constOccs])
    cases v with
    | int z =>
      obtain ⟨enc, henc, hdec⟩ := decode_encode_numeric (.int z) hg
      refine ⟨1 :: enc, ?_, ?_⟩
      · rw [serialiseBody, show encodeConstVal (PyVal.int z) = Except.ok enc from henc,
          bind_ok_ex]
      · intro rest fuel hfuel
        rw [List.cons_append] at hfuel ⊢
        cases fuel with
        | zero => simp at hfuel
        | succ f =>
          rw [dbf_const]
          have hd : decodeConstVal (enc ++ rest) = .ok (.int z, enc.length) := by
            rw [decodeConstVal, hdec rest]
            rfl
          rw [hd]
          simp only [bind_ok_ex]
          have hl : 1 + enc.length = (1 :: enc : List Nat).length := by
            simp only [List.length_cons]
            omega
          rw [hl]
    | float b =>
      obtain ⟨enc, henc, hdec⟩ := decode_encode_numeric (.float b) hg.1
      refine ⟨1 :: enc, ?_, ?_⟩
      · rw [serialiseBody, show encodeConstVal (PyVal.float b) = Except.ok enc from henc,
          bind_ok_ex]
      · intro rest fuel hfuel
        rw [List.cons_append] at hfuel ⊢
        cases fuel with
        | zero => simp at hfuel
        | succ f =>
          rw [dbf_const]
          have hd : decodeConstVal (enc ++ rest) = .ok (.float b, enc.length) := by
            rw [decodeConstVal, hdec rest]
            rfl
          rw [hd]
          simp only [bind_ok_ex]
          have hl : 1 + enc.length = (1 :: enc : List Nat).length := by
            simp only [List.length_cons]
            omega
          rw [hl]
    | lam tg => exact hg.elim
  | var i al =>
    obtain ⟨idx, h1, h2, h3⟩ := hvar (i, al) (by simp [varOccs])
    rw [show (2:Nat) ^ 16 = 65536 from by norm_num] at h2
    refine ⟨2 :: toBytesBE 2 idx, ?_, ?_⟩
    · rw [serialiseBody, h1]
      show (if 2 ^ 16 ≤ idx then Except.error PyErr.overflowError
        else .ok (2 :: toBytesBE 2 idx)) = _
      rw [if_neg (by norm_num; omega)]
    · intro rest fuel hfuel
      rw [List.cons_append] at hfuel ⊢
      cases fuel with
      | zero => simp at hfuel
      | succ f =>
        rw [dbf_var]
        have htake : (toBytesBE 2 idx ++ rest).take 2 = toBytesBE 2 idx := by
          have h4 : (toBytesBE 2 idx ++ rest).take ((toBytesBE 2 idx).length) =
              toBytesBE 2 idx := List.take_left _ _
          rwa [toBytesBE_length] at h4
        have hidx : idx < 256 ^ 2 := by norm_num; omega
        rw [htake, fromBytesBE_toBytesBE 2 idx hidx, h3]
        show Except.ok (Expr.var i al, 1 + 2) = _
        simp [toBytesBE_length]
  | wildcard n => simp [containsWildcard, wildcardNumbers] at hwf
  | plus a b iha ihb =>
    obtain ⟨hwa, hwb⟩ : containsWildcard a = false ∧ containsWildcard b = false := by
      have h0 := (containsWildcard_eq_false _).mp hwf
      simp only [wildcardNumbers] at h0
      obtain ⟨h0a, h0b⟩ := List.append_eq_nil.mp h0
      exact ⟨(containsWildcard_eq_false _).mpr h0a, (containsWildcard_eq_false _).mpr h0b⟩
    obtain ⟨ba, hsa, hda⟩ := iha hwa (fun v hv => hconst v (List.mem_append.mpr (Or.inl hv)))
      (fun p hp => hvar p (List.mem_append.mpr (Or.inl hp)))
    obtain ⟨bb, hsb, hdb⟩ := ihb hwb (fun v hv => hconst v (List.mem_append.mpr (Or.inr hv)))
      (fun p hp => hvar p (List.mem_append.mpr (Or.inr hp)))
    refine ⟨3 :: (ba ++ bb), ?_, ?_⟩
    · rw [serialiseBody, hsa]
      simp only [bind_ok_ex]
      rw [hsb]
      simp only [bind_ok_ex]
    · intro rest fuel hfuel
      rw [List.cons_append] at hfuel ⊢
      cases fuel with
      | zero => simp at hfuel
      | succ f =>
        rw [dbf_plus]
        rw [List.append_assoc]
        have hfa : (ba ++ (bb ++ rest)).length ≤ f := by
          simp only [List.length_cons, List.length_append] at hfuel ⊢
          omega
        rw [hda (bb ++ rest) f hfa]
        simp only [bind_ok_ex]
        rw [List.drop_left]
        have hfb : (bb ++ rest).length ≤ f := by
          simp only [List.length_cons, List.length_append] at hfuel ⊢
          omega
        rw [hdb rest f hfb]
        simp only [bind_ok_ex]
        have hl : 1 + (ba.length + bb.length) = (3 :: (ba ++ bb) : List Nat).length := by
          simp only [List.length_cons, List.length_append]
          omega
        rw [hl]
  | minus a b iha ihb =>
    obtain ⟨hwa, hwb⟩ : containsWildcard a = false ∧ containsWildcard b = false := by
      have h0 := (containsWildcard_eq_false _).mp hwf
      simp only [wildcardNumbers] at h0
      obtain ⟨h0a, h0b⟩ := List.append_eq_nil.mp h0
      exact ⟨(containsWildcard_eq_false _).mpr h0a, (containsWildcard_eq_false _).mpr h0b⟩
    obtain ⟨ba, hsa, hda⟩ := iha hwa (fun v hv => hconst v (List.mem_append.mpr (Or.inl hv)))
      (fun p hp => hvar p (List.mem_append.mpr (Or.inl hp)))
    obtain ⟨bb, hsb, hdb⟩ := ihb hwb (fun v hv => hconst v (List.mem_append.mpr (Or.inr hv)))
      (fun p hp => hvar p (List.mem_append.mpr (Or.inr hp)))
    refine ⟨4 :: (ba ++ bb), ?_, ?_⟩
    · rw [serialiseBody, hsa]
      simp only [bind_ok_ex]
      rw [hsb]
      simp only [bind_ok_ex]
    · intro rest fuel hfuel
      rw [List.cons_append] at hfuel ⊢
      cases fuel with
      | zero => simp at hfuel
      | succ f =>
        rw [dbf_minus]
        rw [List.append_assoc]
        have hfa : (ba ++ (bb ++ rest)).length ≤ f := by
          simp only [List.length_cons, List.length_append] at hfuel ⊢
          omega
        rw [hda (bb ++ rest) f hfa]
        simp only [bind_ok_ex]
        rw [List.drop_left]
        have hfb : (bb ++ rest).length ≤ f := by
          simp only [List.length_cons, List.length_append] at hfuel ⊢
          omega
        rw [hdb rest f hfb]
        simp only [bind_ok_ex]
        have hl : 1 + (ba.length + bb.length) = (4 :: (ba ++ bb) : List Nat).length := by
          simp only [List.length_cons, List.length_append]
          omega
        rw [hl]
  | neg a iha =>
    have hwa : containsWildcard a = false := hwf
    obtain ⟨ba, hsa, hda⟩ := iha hwa hconst hvar
    refine ⟨5 :: ba, ?_, ?_⟩
    · rw [serialiseBody, hsa]
      simp only [bind_ok_ex]
    · intro rest fuel hfuel
      rw [List.cons_append] at hfuel ⊢
      cases fuel with
      | zero => simp at hfuel
      | succ f =>
        rw [dbf_neg]
        have hfa : (ba ++ rest).length ≤ f := by
          simp only [List.length_cons] at hfuel
          omega
        rw [hda rest f hfa]
        simp only [bind_ok_ex]
        have hl : 1 + ba.length = (5 :: ba : List Nat).length := by
          simp only [List.length_cons]
          omega
        rw [hl]
  | times a b iha ihb =>
    obtain ⟨hwa, hwb⟩ : containsWildcard a = false ∧ containsWildcard b = false := by
      have h0 := (containsWildcard_eq_false _).mp hwf
      simp only [wildcardNumbers] at h0
      obtain ⟨h0a, h0b⟩ := List.append_eq_nil.mp h0
      exact ⟨(containsWildcard_eq_false _).mpr h0a, (containsWildcard_eq_false _).mpr h0b⟩
    obtain ⟨ba, hsa, hda⟩ := iha hwa (fun v hv => hconst v (List.mem_append.mpr (Or.inl hv)))
      (fun p hp => hvar p (List.mem_append.mpr (Or.inl hp)))
    obtain ⟨bb, hsb, hdb⟩ := ihb hwb (fun v hv => hconst v (List.mem_append.mpr (Or.inr hv)))
      (fun p hp => hvar p (List.mem_append.mpr (Or.inr hp)))
    refine ⟨6 :: (ba ++ bb), ?_, ?_⟩
    · rw [serialiseBody, hsa]
      simp only [bind_ok_ex]
      rw [hsb]
      simp only [bind_ok_ex]
    · intro rest fuel hfuel
      rw [List.cons_append] at hfuel ⊢
      cases fuel with
      | zero => simp at hfuel
      | succ f =>
        rw [dbf_times]
        rw [List.append_assoc]
        have hfa : (ba ++ (bb ++ rest)).length ≤ f := by
          simp only [List.length_cons, List.length_append] at hfuel ⊢
          omega
        rw [hda (bb ++ rest) f hfa]
        simp only [bind_ok_ex]
        rw [List.drop_left]
        have hfb : (bb ++ rest).length ≤ f := by
          simp only [List.length_cons, List.length_append] at hfuel ⊢
          omega
        rw [hdb rest f hfb]
        simp only [bind_ok_ex]
        have hl : 1 + (ba.length + bb.length) = (6 :: (ba ++ bb) : List Nat).length := by
          simp only [List.length_cons, List.length_append]
          omega
        rw [hl]
  | divide a b iha ihb =>
    obtain ⟨hwa, hwb⟩ : containsWildcard a = false ∧ containsWildcard b = false := by
      have h0 := (containsWildcard_eq_false _).mp hwf
      simp only [wildcardNumbers] at h0
      obtain ⟨h0a, h0b⟩ := List.append_eq_nil.mp h0
      exact ⟨(containsWildcard_eq_false _).mpr h0a, (containsWildcard_eq_false _).mpr h0b⟩
    obtain ⟨ba, hsa, hda⟩ := iha hwa (fun v hv => hconst v (List.mem_append.mpr (Or.inl hv)))
      (fun p hp => hvar p (List.mem_append.mpr (Or.inl hp)))
    obtain ⟨bb, hsb, hdb⟩ := ihb hwb (fun v hv => hconst v (List.mem_append.mpr (Or.inr hv)))
      (fun p hp => hvar p (List.mem_append.mpr (Or.inr hp)))
    refine ⟨7 :: (ba ++ bb), ?_, ?_⟩
    · rw [serialiseBody, hsa]
      simp only [bind_ok_ex]
      rw [hsb]
      simp only [bind_ok_ex]
    · intro rest fuel hfuel
      rw [List.cons_append] at hfuel ⊢
      cases fuel with
      | zero => simp at hfuel
      | succ f =>
        rw [dbf_divide]
        rw [List.append_assoc]
        have hfa : (ba ++ (bb ++ rest)).length ≤ f := by
          simp only [List.length_cons, List.length_append] at hfuel ⊢
          omega
        rw [hda (bb ++ rest) f hfa]
        simp only [bind_ok_ex]
        rw [List.drop_left]
        have hfb : (bb ++ rest).length ≤ f := by
          simp only [List.length_cons, List.length_append] at hfuel ⊢
          omega
        rw [hdb rest f hfb]
        simp only [bind_ok_ex]
        have hl : 1 + (ba.length + bb.length) = (7 :: (ba ++ bb) : List Nat).length := by
          simp only [List.length_cons, List.length_append]
          omega
        rw [hl]
  | modulo a b iha ihb =>
    obtain ⟨hwa, hwb⟩ : containsWildcard a = false ∧ containsWildcard b = false := by
      have h0 := (containsWildcard_eq_false _).mp hwf
      simp only [wildcardNumbers] at h0
      obtain ⟨h0a, h0b⟩ := List.append_eq_nil.mp h0
      exact ⟨(containsWildcard_eq_false _).mpr h0a, (containsWildcard_eq_false _).mpr h0b⟩
    obtain ⟨ba, hsa, hda⟩ := iha hwa (fun v hv => hconst v (List.mem_append.mpr (Or.inl hv)))
      (fun p hp => hvar p (List.mem_append.mpr (Or.inl hp)))
    obtain ⟨bb, hsb, hdb⟩ := ihb hwb (fun v hv => hconst v (List.mem_append.mpr (Or.inr hv)))
      (fun p hp => hvar p (List.mem_append.mpr (Or.inr hp)))
    refine ⟨8 :: (ba ++ bb), ?_, ?_⟩
    · rw [serialiseBody, hsa]
      simp only [bind_ok_ex]
      rw [hsb]
      simp only [bind_ok_ex]
    · intro rest fuel hfuel
      rw [List.cons_append] at hfuel ⊢
      cases fuel with
      | zero => simp at hfuel
      | succ f =>
        rw [dbf_modulo]
        rw [List.append_assoc]
        have hfa : (ba ++ (bb ++ rest)).length ≤ f := by
          simp only [List.length_cons, List.length_append] at hfuel ⊢
          omega
        rw [hda (bb ++ rest) f hfa]
        simp only [bind_ok_ex]
        rw [List.drop_left]
        have hfb : (bb ++ rest).length ≤ f := by
          simp only [List.length_cons, List.length_append] at hfuel ⊢
          omega
        rw [hdb rest f hfb]
        simp only [bind_ok_ex]
        have hl : 1 + (ba.length + bb.length) = (8 :: (ba ++ bb) : List Nat).length := by
          simp only [List.length_cons, List.length_append]
          omega
        rw [hl]
  | power a b iha ihb =>
    obtain ⟨hwa, hwb⟩ : containsWildcard a = false ∧ containsWildcard b = false := by
      have h0 := (containsWildcard_eq_false _).mp hwf
      simp only [wildcardNumbers] at h0
      obtain ⟨h0a, h0b⟩ := List.append_eq_nil.mp h0
      exact ⟨(containsWildcard_eq_false _).mpr h0a, (containsWildcard_eq_false _).mpr h0b⟩
    obtain ⟨ba, hsa, hda⟩ := iha hwa (fun v hv => hconst v (List.mem_append.mpr (Or.inl hv)))
      (fun p hp => hvar p (List.mem_append.mpr (Or.inl hp)))
    obtain ⟨bb, hsb, hdb⟩ := ihb hwb (fun v hv => hconst v (List.mem_append.mpr (Or.inr hv)))
      (fun p hp => hvar p (List.mem_append.mpr (Or.inr hp)))
    refine ⟨9 :: (ba ++ bb), ?_, ?_⟩
    · rw [serialiseBody, hsa]
      simp only [bind_ok_ex]
      rw [hsb]
      simp only [bind_ok_ex]
    · intro rest fuel hfuel
      rw [List.cons_append] at hfuel ⊢
      cases fuel with
      | zero => simp at hfuel
      | succ f =>
        rw [dbf_power]
        rw [List.append_assoc]
        have hfa : (ba ++ (bb ++ rest)).length ≤ f := by
          simp only [List.length_cons, List.length_append] at hfuel ⊢
          omega
        rw [hda (bb ++ rest) f hfa]
        simp only [bind_ok_ex]
        rw [List.drop_left]
        have hfb : (bb ++ rest).length ≤ f := by
          simp only [List.length_cons, List.length_append] at hfuel ⊢
          omega
        rw [hdb rest f hfb]
        simp only [bind_ok_ex]
        have hl : 1 + (ba.length + bb.length) = (9 :: (ba ++ bb) : List Nat).length := by
          simp only [List.length_cons, List.length_append]
          omega
        rw [hl]
  | exp a iha =>
    have hwa : containsWildcard a = false := hwf
    obtain ⟨ba, hsa, hda⟩ := iha hwa hconst hvar
    refine ⟨10 :: ba, ?_, ?_⟩
    · rw [serialiseBody, hsa]
      simp only [bind_ok_ex]
    · intro rest fuel hfuel
      rw [List.cons_append] at hfuel ⊢
      cases fuel with
      | zero => simp at hfuel
      | succ f =>
        rw [dbf_exp]
        have hfa : (ba ++ rest).length ≤ f := by
          simp only [List.length_cons] at hfuel
          omega
        rw [hda rest f hfa]
        simp only [bind_ok_ex]
        have hl : 1 + ba.length = (10 :: ba : List Nat).length := by
          simp only [List.length_cons]
          omega
        rw [hl]
  | log a iha =>
    have hwa : containsWildcard a = false := hwf
    obtain ⟨ba, hsa, hda⟩ := iha hwa hconst hvar
    refine ⟨11 :: ba, ?_, ?_⟩
    · rw [serialiseBody, hsa]
      simp only [bind_ok_ex]
    · intro rest fuel hfuel
      rw [List.cons_append] at hfuel ⊢
      cases fuel with
      | zero => simp at hfuel
      | succ f =>
        rw [dbf_log]
        have hfa : (ba ++ rest).length ≤ f := by
          simp only [List.length_cons] at hfuel
          omega
        rw [hda rest f hfa]
        simp only [bind_ok_ex]
        have hl : 1 + ba.length = (11 :: ba : List Nat).length := by
          simp only [List.length_cons]
          omega
        rw [hl]
  | cos a iha =>
    have hwa : containsWildcard a = false := hwf
    obtain ⟨ba, hsa, hda⟩ := iha hwa hconst hvar
    refine ⟨12 :: ba, ?_, ?_⟩
    · rw [serialiseBody, hsa]
      simp only [bind_ok_ex]
    · intro rest fuel hfuel
      rw [List.cons_append] at hfuel ⊢
      cases fuel with
      | zero => simp at hfuel
      | succ f =>
        rw [dbf_cos]
        have hfa : (ba ++ rest).length ≤ f := by
          simp only [List.length_cons] at hfuel
          omega
        rw [hda rest f hfa]
        simp only [bind_ok_ex]
        have hl : 1 + ba.length = (12 :: ba : List Nat).length := by
          simp only [List.length_cons]
          omega
        rw [hl]
  | sin a iha =>
    have hwa : containsWildcard a = false := hwf
    obtain ⟨ba, hsa, hda⟩ := iha hwa hconst hvar
    refine ⟨13 :: ba, ?_, ?_⟩
    · rw [serialiseBody, hsa]
      simp only [bind_ok_ex]
    · intro rest fuel hfuel
      rw [List.cons_append] at hfuel ⊢
      cases fuel with
      | zero => simp at hfuel
      | succ f =>
        rw [dbf_sin]
        have hfa : (ba ++ rest).length ≤ f := by
          simp only [List.length_cons] at hfuel
          omega
        rw [hda rest f hfa]
        simp only [bind_ok_ex]
        have hl : 1 + ba.length = (13 :: ba : List Nat).length := by
          simp only [List.length_cons]
          omega
        rw [hl]
  | abs a iha =>
    have hwa : containsWildcard a = false := hwf
    obtain ⟨ba, hsa, hda⟩ := iha hwa hconst hvar
    refine ⟨14 :: ba, ?_, ?_⟩
    · rw [serialiseBody, hsa]
      simp only [bind_ok_ex]
    · intro rest fuel hfuel
      rw [List.cons_append] at hfuel ⊢
      cases fuel with
      | zero => simp at hfuel
      | succ f =>
        rw [dbf_abs]
        have hfa : (ba ++ rest).length ≤ f := by
          simp only [List.length_cons] at hfuel
          omega
        rw [hda rest f hfa]
        simp only [bind_ok_ex]
        have hl : 1 + ba.length = (14 :: ba : List Nat).length := by
          simp only [List.length_cons]
          omega
        rw [hl]
  | sign a iha =>
    have hwa : containsWildcard a = false := hwf
    obtain ⟨ba, hsa, hda⟩ := iha hwa hconst hvar
    refine ⟨15 :: ba, ?_, ?_⟩
    · rw [serialiseBody, hsa]
      simp only [bind_ok_ex]
    · intro rest fuel hfuel
      rw [List.cons_append] at hfuel ⊢
      cases fuel with
      | zero => simp at hfuel
      | succ f =>
        rw [dbf_sign]
        have hfa : (ba ++ rest).length ≤ f := by
          simp only [List.length_cons] at hfuel
          omega
        rw [hda rest f hfa]
        simp only [bind_ok_ex]
        have hl : 1 + ba.length = (15 :: ba : List Nat).length := by
          simp only [List.length_cons]
          omega
        rw [hl]

/-! ## The serialisation round trip (C3) -/

/-- The serialise/deserialise round trip under the side conditions the
codec needs. -/
theorem serialise_deserialise (t : Expr)
    (hwf : containsWildcard t = false)
    (hconst : ∀ v ∈ constOccs t, ConstGood v)
    (hsize : ∀ p ∈ varOccs t, p.1.length < 2 ^ 32 ∧
      (aliasBytes p.2).length < 2 ^ 32 ∧ p.2 ≠ some [])
    (halias : ∀ p ∈ varOccs t, ∀ q ∈ varOccs t, p.1 = q.1 → p.2 = q.2)
    (hcount : (exprVariables t).length < 2 ^ 16) :
    ∃ bs, serialise t = .ok bs ∧ deserialise bs = .ok t := by
  obtain ⟨h1, h2, hnd⟩ := exprVariables_good t
  have hEG : ∀ p ∈ exprVariables t, EntryGood p := fun p hp => hsize p (h1 p hp)
  have hvar2 : ∀ p ∈ varOccs t,
      ∃ idx, lookupIdx ((exprVariables t).map fun kv => kv.1) p.1 = some idx ∧
        idx < 2 ^ 16 ∧
        ((exprVariables t).map fun kv => mkVariable kv.1 kv.2)[idx]? =
          some (.var p.1 p.2) := by
    intro p hp
    obtain ⟨al, hal⟩ := h2 p hp
    have hpo : (p.1, al) ∈ varOccs t := h1 _ hal
    have heq : al = p.2 := by simpa using halias (p.1, al) hpo p hp rfl
    have hpin : p ∈ exprVariables t := by
      have h3 : (p.1, p.2) ∈ exprVariables t := heq ▸ hal
      rwa [Prod.mk.eta] at h3
    obtain ⟨idx, hl1, hl2, hl3⟩ := table_lookup (exprVariables t) hnd p hpin
    refine ⟨idx, ?_, lt_trans hl2 hcount, ?_⟩
    · rw [show ((exprVariables t).map fun kv => kv.1) =
        (exprVariables t).map Prod.fst from rfl]
      exact hl1
    · rw [List.getElem?_map, hl3, Option.map_some']
      show some (mkVariable p.1 p.2) = _
      rw [mkVariable_eq p.1 p.2 (hsize p hp).2.2]
  obtain ⟨body, hsb, hdb⟩ := body_rt t ((exprVariables t).map fun kv => kv.1)
    ((exprVariables t).map fun kv => mkVariable kv.1 kv.2) hwf hconst hvar2
  refine ⟨tableBytes (exprVariables t) ++ body, ?_, ?_⟩
  · rw [serialise, encode_variable_table_ok _ hEG hcount]
    show (match serialiseBody t ((exprVariables t).map fun kv => kv.1) with
      | .error e2 => Except.error e2
      | .ok body2 => .ok (tableBytes (exprVariables t) ++ body2)) = _
    rw [hsb]
  · have hbody : deserialiseBody body
        ((exprVariables t).map fun kv => mkVariable kv.1 kv.2) = .ok (t, body.length) := by
      have h5 : (body ++ ([] : List Nat)).length ≤ body.length := by simp
      have h6 := hdb [] body.length h5
      rw [List.append_nil] at h6
      rw [deserialiseBody]
      exact h6
    have hws : deserialise_with_size (tableBytes (exprVariables t) ++ body) =
        .ok (t, (tableBytes (exprVariables t)).length + body.length) := by
      rw [deserialise_with_size, decode_variable_table_rt _ hEG hcount body]
      show (match deserialiseBody
          ((tableBytes (exprVariables t) ++ body).drop (tableBytes (exprVariables t)).length)
          ((exprVariables t).map fun kv => mkVariable kv.1 kv.2) with
        | .error e => Except.error e
        | .ok (e2, elen) => .ok (e2, (tableBytes (exprVariables t)).length + elen)) = _
      rw [List.drop_left, hbody]
    rw [deserialise, hws]

/-- C3 (counterexample): the round trip does not preserve every variable
print alias.  Two occurrences of the same identity with different aliases
collapse to one variable-table entry (dict assignment keyed by identity,
last alias wins), and deserialisation rebuilds every occurrence from that
entry: serialising Plus(Variable(x, alias f), Variable(x, alias g)) and
deserialising yields Plus(Variable(x, alias g), Variable(x, alias g)),
whose left alias differs from the original. -/
theorem claim_C3_counterexample :
    (serialise (Expr.plus (.var [120] (some [102])) (.var [120] (some [103]))) >>=
      fun bs => deserialise bs) =
      .ok (.plus (.var [120] (some [103])) (.var [120] (some [103]))) ∧
    Expr.plus (Expr.var [120] (some [103])) (Expr.var [120] (some [103])) ≠
      Expr.plus (Expr.var [120] (some [102])) (Expr.var [120] (some [103])) := by
  decide

/-- C3 (amended): for every wildcard-free tree whose constants are scalar
integers in int32 range or non-NaN 64-bit floats, whose variable identity
and alias payloads each fit the 4-byte length prefix, whose aliases are
normalised (never the empty string, as Variable.__init__ guarantees) and
consistent across occurrences of the same identity, and which mentions
fewer than 2^16 distinct variable identities, serialise succeeds and
deserialise returns the very tree back — aliases included — hence a tree
structurally equal (full_identity) to the original. -/
theorem claim_C3_amended (t : Expr)
    (hwf : containsWildcard t = false)
    (hconst : ∀ v ∈ constOccs t, ConstGood v)
    (hsize : ∀ p ∈ varOccs t, p.1.length < 2 ^ 32 ∧
      (aliasBytes p.2).length < 2 ^ 32 ∧ p.2 ≠ some [])
    (halias : ∀ p ∈ varOccs t, ∀ q ∈ varOccs t, p.1 = q.1 → p.2 = q.2)
    (hcount : (exprVariables t).length < 2 ^ 16) :
    ∃ bs, serialise t = .ok bs ∧ deserialise bs = .ok t ∧
      full_identity t t = true := by
  obtain ⟨bs, hs, hd⟩ := serialise_deserialise t hwf hconst hsize halias hcount
  exact ⟨bs, hs, hd, full_identity_refl t hconst⟩

/-- C3 (witness): the amended round trip at the concrete tree
Plus(Variable(x, alias g), Variable(x, alias g)). -/
theorem claim_C3_witness :
    ∃ bs, serialise (Expr.plus (Expr.var [120] (some [103]))
        (Expr.var [120] (some [103]))) = .ok bs ∧
      deserialise bs = .ok (Expr.plus (Expr.var [120] (some [103]))
        (Expr.var [120] (some [103]))) ∧
      full_identity
        (Expr.plus (Expr.var [120] (some [103])) (Expr.var [120] (some [103])))
        (Expr.plus (Expr.var [120] (some [103])) (Expr.var [120] (some [103]))) =
        true :=
  claim_C3_amended _ (by decide) (by decide) (by decide) (by decide) (by decide)

end Erroneous
